import Mathlib

/-!
Verification of the FileSynchronizer repository (folder_synchronizer.py).

The development shallowly embeds the core of `FolderSynchronizer`:
  * `_calculate_file_hash`  -> `calcFileHash` (chunked MD5 over file bytes),
  * `process_directory`     -> `processDirectory` / `scanDir` (os.walk embedding),
  * `compare_hashes`        -> `compareHashes` (diff sets + filesystem actions),
  * `sync_folders`          -> `syncFolders`.

Filesystems are modelled as finite trees (`FSTree`): a node is either a file
with byte contents and a readability flag (a False flag models a file whose
read raises, matching the try/except around hashing), or a directory with a
named list of children.  Manifests are association lists from relative paths
(lists of name components, mirroring os.path.relpath results) to `Option
String`: `none` is the `None` directory marker, `some h` an MD5 hex digest.
-/

namespace FSync

/-! ## Paths and association lists -/

abbrev Path := List String

def alookup {α : Type} (k : Path) : List (Path × α) → Option α
  | [] => none
  | e :: rest => if e.1 = k then some e.2 else alookup k rest

/-- `pfx q p` holds when `q` is a (not necessarily proper) leading segment
of the component list `p`. -/
def pfx : Path → Path → Bool
  | [], _ => true
  | _ :: _, [] => false
  | a :: q, b :: p => if a = b then pfx q p else false

/-! ## MD5 (RFC 1321), the `hashlib.md5` default of `_calculate_file_hash` -/

def mask32 : Nat := 4294967295

def rotl32 (x s : Nat) : Nat := ((x <<< s) ||| (x >>> (32 - s))) &&& mask32

def KTable : List Nat :=
  [0xd76aa478, 0xe8c7b756, 0x242070db, 0xc1bdceee,
   0xf57c0faf, 0x4787c62a, 0xa8304613, 0xfd469501,
   0x698098d8, 0x8b44f7af, 0xffff5bb1, 0x895cd7be,
   0x6b901122, 0xfd987193, 0xa679438e, 0x49b40821,
   0xf61e2562, 0xc040b340, 0x265e5a51, 0xe9b6c7aa,
   0xd62f105d, 0x02441453, 0xd8a1e681, 0xe7d3fbc8,
   0x21e1cde6, 0xc33707d6, 0xf4d50d87, 0x455a14ed,
   0xa9e3e905, 0xfcefa3f8, 0x676f02d9, 0x8d2a4c8a,
   0xfffa3942, 0x8771f681, 0x6d9d6122, 0xfde5380c,
   0xa4beea44, 0x4bdecfa9, 0xf6bb4b60, 0xbebfbc70,
   0x289b7ec6, 0xeaa127fa, 0xd4ef3085, 0x04881d05,
   0xd9d4d039, 0xe6db99e5, 0x1fa27cf8, 0xc4ac5665,
   0xf4292244, 0x432aff97, 0xab9423a7, 0xfc93a039,
   0x655b59c3, 0x8f0ccc92, 0xffeff47d, 0x85845dd1,
   0x6fa87e4f, 0xfe2ce6e0, 0xa3014314, 0x4e0811a1,
   0xf7537e82, 0xbd3af235, 0x2ad7d2bb, 0xeb86d391]

def STable : List Nat :=
  [7, 12, 17, 22, 7, 12, 17, 22, 7, 12, 17, 22, 7, 12, 17, 22,
   5, 9, 14, 20, 5, 9, 14, 20, 5, 9, 14, 20, 5, 9, 14, 20,
   4, 11, 16, 23, 4, 11, 16, 23, 4, 11, 16, 23, 4, 11, 16, 23,
   6, 10, 15, 21, 6, 10, 15, 21, 6, 10, 15, 21, 6, 10, 15, 21]

def md5F (i b c d : Nat) : Nat :=
  if i < 16 then (b &&& c) ||| ((b ^^^ mask32) &&& d)
  else if i < 32 then (d &&& b) ||| ((d ^^^ mask32) &&& c)
  else if i < 48 then b ^^^ c ^^^ d
  else c ^^^ (b ||| (d ^^^ mask32))

def md5G (i : Nat) : Nat :=
  if i < 16 then i
  else if i < 32 then (5 * i + 1) % 16
  else if i < 48 then (3 * i + 5) % 16
  else (7 * i) % 16

def md5Step (M : List Nat) (st : Nat × Nat × Nat × Nat) (i : Nat) :
    Nat × Nat × Nat × Nat :=
  let f := (md5F i st.2.1 st.2.2.1 st.2.2.2 + st.1 + KTable.getD i 0 +
            M.getD (md5G i) 0) &&& mask32
  (st.2.2.2, (st.2.1 + rotl32 f (STable.getD i 0)) &&& mask32, st.2.1, st.2.2.1)

def md5Block (st : Nat × Nat × Nat × Nat) (M : List Nat) :
    Nat × Nat × Nat × Nat :=
  let r := (List.range 64).foldl (md5Step M) st
  ((st.1 + r.1) &&& mask32, (st.2.1 + r.2.1) &&& mask32,
   (st.2.2.1 + r.2.2.1) &&& mask32, (st.2.2.2 + r.2.2.2) &&& mask32)

def toWordsLE : List Nat → List Nat
  | b0 :: b1 :: b2 :: b3 :: rest =>
    ((b0 % 256) + 256 * (b1 % 256) + 65536 * (b2 % 256) +
     16777216 * (b3 % 256)) :: toWordsLE rest
  | _ => []

def wordLE (w : Nat) : List Nat :=
  [w % 256, w / 256 % 256, w / 65536 % 256, w / 16777216 % 256]

def lenBytesLE (len : Nat) : List Nat :=
  let L := (len * 8) % 18446744073709551616
  [L % 256, L / 256 % 256, L / 65536 % 256, L / 16777216 % 256,
   L / 4294967296 % 256, L / 1099511627776 % 256,
   L / 281474976710656 % 256, L / 72057594037927936 % 256]

def md5Pad (msg : List Nat) : List Nat :=
  msg ++ [128] ++ List.replicate ((119 - msg.length % 64) % 64) 0 ++
    lenBytesLE msg.length

/-- Reading a byte stream in chunks of `n` bytes: the
`while chunk := file.read(chunk_size)` loop of `_calculate_file_hash`
(an empty read, in particular a read with chunk size 0, stops the loop). -/
def readChunks (n : Nat) (c : List Nat) : List (List Nat) :=
  if c = [] then []
  else if n = 0 then []
  else c.take n :: readChunks n (c.drop n)
termination_by c.length
decreasing_by
  simp only [List.length_drop]
  rename_i h1 h2
  have hl : 0 < c.length := List.length_pos.mpr h1
  omega

def md5Final (st : Nat × Nat × Nat × Nat) : List Nat :=
  wordLE st.1 ++ wordLE st.2.1 ++ wordLE st.2.2.1 ++ wordLE st.2.2.2

def md5Bytes (msg : List Nat) : List Nat :=
  md5Final (((readChunks 64 (md5Pad msg)).map toWordsLE).foldl md5Block
    (1732584193, 4023233417, 2562383102, 271733878))

def hexChar (n : Nat) : Char :=
  if n < 10 then Char.ofNat (48 + n) else Char.ofNat (87 + n)

def byteHex (b : Nat) : List Char := [hexChar (b / 16 % 16), hexChar (b % 16)]

def md5HexChars (msg : List Nat) : List Char := (md5Bytes msg).flatMap byteHex

/-- The lowercase hexadecimal MD5 digest of a byte sequence: the value of
`hashlib.md5(data).hexdigest()`. -/
def md5Hex (msg : List Nat) : String := String.mk (md5HexChars msg)

/-- `_calculate_file_hash` with default arguments: the file is read in
chunks of 1,000,000 bytes, each chunk is fed to the incremental MD5
accumulator (whose digest is the MD5 of the concatenation of all updates),
and the hex digest is returned. -/
def calcFileHash (content : List Nat) : String :=
  md5Hex ((readChunks 1000000 content).foldl (fun acc ch => acc ++ ch) [])

/-! ## Filesystem trees -/

mutual
inductive FSTree : Type where
  | file (content : List Nat) (readable : Bool) : FSTree
  | dir (children : FSList) : FSTree
inductive FSList : Type where
  | nil : FSList
  | cons (name : String) (t : FSTree) (rest : FSList) : FSList
end

def lookupC : FSList → String → Option FSTree
  | .nil, _ => none
  | .cons m t rest, n => if m = n then some t else lookupC rest n

def hasName (ch : FSList) (n : String) : Bool := (lookupC ch n).isSome

def replaceC : FSList → String → FSTree → FSList
  | .nil, _, _ => .nil
  | .cons m t rest, n, u => .cons m (if m = n then u else t) (replaceC rest n u)

def removeC : FSList → String → FSList
  | .nil, _ => .nil
  | .cons m t rest, n =>
    if m = n then removeC rest n else .cons m t (removeC rest n)

def snocC : FSList → String → FSTree → FSList
  | .nil, n, u => .cons n u .nil
  | .cons m t rest, n, u => .cons m t (snocC rest n u)

mutual
/-- Well-formedness: sibling names are distinct (true of any real directory
listing, hence of everything os.walk can produce). -/
def wfT : FSTree → Bool
  | .file _ _ => true
  | .dir ch => wfL ch
def wfL : FSList → Bool
  | .nil => true
  | .cons m t rest => !(hasName rest m) && wfT t && wfL rest
end

mutual
def allReadableT : FSTree → Bool
  | .file _ r => r
  | .dir ch => allReadableL ch
def allReadableL : FSList → Bool
  | .nil => true
  | .cons _ t rest => allReadableT t && allReadableL rest
end

/-- Resolve a relative path to the node it denotes, if any. -/
def getNode : FSTree → Path → Option FSTree
  | t, [] => some t
  | .file _ _, _ :: _ => none
  | .dir ch, n :: p =>
    match lookupC ch n with
    | some t => getNode t p
    | none => none

/-- The kind-and-payload view of a path: `none` = no entry, `some none` =
directory, `some (some (c, r))` = file with contents `c`, readable `r`. -/
def nview (t : FSTree) (p : Path) : Option (Option (List Nat × Bool)) :=
  match getNode t p with
  | none => none
  | some (.dir _) => some none
  | some (.file c r) => some (some (c, r))

def isDirB : FSTree → Bool
  | .dir _ => true
  | _ => false

/-! ## The scan: `process_directory` (os.walk with per-file try/except) -/

/-- The `Directory` entries contributed by one os.walk triple: every
subdirectory of the listed directory, keyed by its single-component name. -/
def scanLevel : FSList → List (Path × Option String)
  | .nil => []
  | .cons m t rest =>
    (match t with
     | .dir _ => [([m], (none : Option String))]
     | _ => []) ++ scanLevel rest

/-- The file entries contributed by one os.walk triple: each readable file
is hashed and recorded; a file whose read raises is caught, logged and
omitted (the try/except of `process_directory`). -/
def filesLevel : FSList → List (Path × Option String)
  | .nil => []
  | .cons m t rest =>
    (match t with
     | .file c true => [([m], some (md5Hex c))]
     | _ => []) ++ filesLevel rest

mutual
/-- os.walk rooted at a directory: the root triple's directory and file
entries, then the recursive walk of each subdirectory, keys prefixed with
the subdirectory name (os.path.relpath against the fixed root). A walk
rooted at a non-directory yields nothing. -/
def scanDir : FSTree → List (Path × Option String)
  | .file _ _ => []
  | .dir ch => scanLevel ch ++ filesLevel ch ++ scanSub ch
def scanSub : FSList → List (Path × Option String)
  | .nil => []
  | .cons m t rest =>
    (match t with
     | .dir _ => (scanDir t).map (fun e => (m :: e.1, e.2))
     | _ => []) ++ scanSub rest
end

abbrev Manifest := List (Path × Option String)

def keysOf (m : Manifest) : List Path := m.map Prod.fst

/-- `process_directory(root)`: os.walk on a missing root (or a root that
is not a directory) yields no triples at all, so the returned dict is
empty; otherwise the walk produces the manifest. -/
def processDirectory : Option FSTree → Manifest
  | none => []
  | some t => scanDir t

/-! ## The diff: first half of `compare_hashes` -/

def addedOf (MS MR : Manifest) : List Path :=
  (keysOf MS).filter (fun k => (alookup k MR).isNone)

def removedOf (MS MR : Manifest) : List Path :=
  (keysOf MR).filter (fun k => (alookup k MS).isNone)

/-- `modified_files`: keys in both dicts whose stored values differ
(`self.source_hash[file] != self.replica_hash[file]` compares the raw dict
values, `None` markers included). -/
def modifiedOf (MS MR : Manifest) : List Path :=
  (keysOf MS).filter (fun k =>
    match alookup k MR with
    | none => false
    | some vR => decide (alookup k MS ≠ some vR))

/-! ## Filesystem actions: second half of `compare_hashes` -/

/-- `os.makedirs(path, exist_ok=True)` relative to the tree root: create
every missing component as a directory; an existing directory is fine,
while a file occupying any component raises. -/
def makedirs : FSTree → Path → Except String FSTree
  | .dir ch, [] => .ok (.dir ch)
  | .file _ _, [] => .error "FileExistsError"
  | .file _ _, _ :: _ => .error "NotADirectoryError"
  | .dir ch, n :: p =>
    match lookupC ch n with
    | some sub =>
      match makedirs sub p with
      | .ok sub' => .ok (.dir (replaceC ch n sub'))
      | .error e => .error e
    | none =>
      match makedirs (.dir .nil) p with
      | .ok sub' => .ok (.dir (snocC ch n sub'))
      | .error e => .error e

/-- Write a file at an exact path (the effect of `shutil.copy2` onto a
non-directory destination): overwrite an existing file, create a new file
when the parent directory exists; fail when the destination is a
directory, when a parent is missing, or when a parent is a file. -/
def putFile : FSTree → Path → List Nat → Except String FSTree
  | _, [], _ => .error "IsADirectoryError"
  | .file _ _, _ :: _, _ => .error "NotADirectoryError"
  | .dir ch, [n], c =>
    match lookupC ch n with
    | some (.dir _) => .error "IsADirectoryError"
    | some (.file _ _) => .ok (.dir (replaceC ch n (.file c true)))
    | none => .ok (.dir (snocC ch n (.file c true)))
  | .dir ch, n :: m :: p, c =>
    match lookupC ch n with
    | some sub =>
      match putFile sub (m :: p) c with
      | .ok sub' => .ok (.dir (replaceC ch n sub'))
      | .error e => .error e
    | none => .error "FileNotFoundError"

/-- Remove the entry at a path together with everything below it (the
shared effect of `shutil.rmtree` on a directory and `os.remove` on a
file); no change when the path does not resolve. -/
def deletePath : FSTree → Path → FSTree
  | t, [] => t
  | .file c r, _ :: _ => .file c r
  | .dir ch, [n] => .dir (removeC ch n)
  | .dir ch, n :: m :: p =>
    match lookupC ch n with
    | some sub => .dir (replaceC ch n (deletePath sub (m :: p)))
    | none => .dir ch

/-- One `removed_files` iteration (lines 73-78): if the replica path
exists it is removed — `shutil.rmtree` when it is a directory, `os.remove`
otherwise — and if it does not exist the entry is skipped. -/
def removeAction (t : FSTree) (p : Path) : FSTree :=
  match getNode t p with
  | some (.dir _) => deletePath t p
  | some (.file _ _) => deletePath t p
  | none => t

def getNodeO : Option FSTree → Path → Option FSTree
  | none, _ => none
  | some t, p => getNode t p

/-- `os.path.isdir` against the (possibly missing) source root. -/
def isDirAtO (src : Option FSTree) (p : Path) : Bool :=
  match getNodeO src p with
  | some (.dir _) => true
  | _ => false

/-- `copy_file`, i.e. `shutil.copy2(source_root/sp, replica_root/dp)`:
reading a directory or a missing or unreadable source raises; a
destination that is an existing directory receives the copy *inside*
itself under the source basename; otherwise the destination path is
(over)written. -/
def copyFile (src : Option FSTree) (sp : Path) (rep : FSTree) (dp : Path) :
    Except String FSTree :=
  match getNodeO src sp with
  | none => .error "FileNotFoundError"
  | some (.dir _) => .error "IsADirectoryError"
  | some (.file c r) =>
    if r then
      match getNode rep dp with
      | some (.dir _) => putFile rep (dp ++ [sp.getLastD ""]) c
      | _ => putFile rep dp c
    else .error "PermissionError"

/-- One `added_files` iteration (lines 59-66): a source directory is
mirrored with `os.makedirs(..., exist_ok=True)`; otherwise the parent of
the replica path is created and the file copied. -/
def applyAddedOne (src : Option FSTree) (rep : FSTree) (k : Path) :
    Except String FSTree :=
  if isDirAtO src k then makedirs rep k
  else
    match makedirs rep k.dropLast with
    | .ok rep' => copyFile src k rep' k
    | .error e => .error e

/-- `compare_hashes`: compute the three diff sets from the stored
manifests, then apply the added, removed and modified actions in that
order (logging has no filesystem effect and is not modelled). -/
def compareHashes (src : Option FSTree) (rep : FSTree) (MS MR : Manifest) :
    Except String FSTree :=
  match (addedOf MS MR).foldlM (applyAddedOne src) rep with
  | .error e => .error e
  | .ok r1 =>
    let r2 := (removedOf MS MR).foldl removeAction r1
    (modifiedOf MS MR).foldlM (fun r k => copyFile src k r k) r2

/-- `sync_folders`: scan both roots, then compare and apply. -/
def syncFolders (src : Option FSTree) (rep : FSTree) : Except String FSTree :=
  compareHashes src rep (processDirectory src) (processDirectory (some rep))

/-! ## Derived views used in theorem statements -/

/-- The digest-level view of a tree that a scan realises: `none` for the
root and for absent or unreadable entries, `some none` for directories,
`some (some h)` for readable files with digest `h`. -/
def viewScan (t : FSTree) (p : Path) : Option (Option String) :=
  if p = [] then none
  else
    match getNode t p with
    | some (.dir _) => some none
    | some (.file c true) => some (some (md5Hex c))
    | some (.file _ false) => none
    | none => none

/-- Like `viewScan` but with every file treated as readable: the view of
an all-readable tree. -/
def treeDigestView (t : FSTree) (p : Path) : Option (Option String) :=
  if p = [] then none
  else
    match getNode t p with
    | some (.dir _) => some none
    | some (.file c _) => some (some (md5Hex c))
    | none => none

/-- The node view the sync pass builds at a path it copies from the
source: directories stay directories, files receive the source contents
and are readable. -/
def builtView (S : FSTree) (p : Path) : Option (Option (List Nat × Bool)) :=
  match getNode S p with
  | some (.dir _) => some none
  | some (.file c _) => some (some (c, true))
  | none => none

mutual
def allPaths : FSTree → List Path
  | .file _ _ => [[]]
  | .dir ch => [] :: pathsL ch
def pathsL : FSList → List Path
  | .nil => []
  | .cons m t rest => (allPaths t).map (fun p => m :: p) ++ pathsL rest
end

def kindOkB : Option (Option (List Nat × Bool)) →
    Option (Option (List Nat × Bool)) → Bool
  | some none, some (some _) => false
  | some (some _), some none => false
  | _, _ => true

/-- No path is a directory in one tree and a file in the other
(quantified over the finitely many paths of `S`; a flip needs an entry on
both sides, so this is equivalent to the unbounded statement). -/
def noFlipB (S R : FSTree) : Bool :=
  (allPaths S).all (fun p => kindOkB (nview S p) (nview R p))

/-- Flip the readability of the file at `p` to `true`, used to compare a
scan that hits a read error with the scan of the repaired tree. -/
def markReadable : FSTree → Path → FSTree
  | .file c _, [] => .file c true
  | .dir ch, [] => .dir ch
  | .file c r, _ :: _ => .file c r
  | .dir ch, n :: p =>
    match lookupC ch n with
    | some sub => .dir (replaceC ch n (markReadable sub p))
    | none => .dir ch

def inAZone (l : List Path) (p : Path) : Prop := ∃ k, k ∈ l ∧ pfx p k = true

def inEZone (l : List Path) (p : Path) : Prop := ∃ r, r ∈ l ∧ pfx r p = true

end FSync

namespace FSync

/-! ## Association list and path lemmas -/

theorem alookup_append {α : Type} (k : Path) (a b : List (Path × α)) :
    alookup k (a ++ b) =
      match alookup k a with
      | some v => some v
      | none => alookup k b := by
  induction a with
  | nil => simp [alookup]
  | cons e rest ih =>
    by_cases h : e.1 = k <;> simp [alookup, h, ih]

theorem alookup_none_iff {α : Type} (k : Path) (l : List (Path × α)) :
    alookup k l = none ↔ ¬ k ∈ l.map Prod.fst := by
  induction l with
  | nil => simp [alookup]
  | cons e rest ih =>
    simp only [alookup, List.map_cons, List.mem_cons]
    by_cases h : e.1 = k
    · subst h
      rw [if_pos rfl]
      constructor
      · exact fun hn => (Option.some_ne_none _ hn).elim
      · exact fun hn => (hn (Or.inl rfl)).elim
    · simp only [if_neg h, ih]
      constructor
      · rintro hn (h1 | h2)
        · exact h h1.symm
        · exact hn h2
      · intro hn h2
        exact hn (Or.inr h2)

theorem mem_keys_iff_alookup {α : Type} (k : Path) (l : List (Path × α)) :
    k ∈ l.map Prod.fst ↔ ∃ v, alookup k l = some v := by
  rw [← not_iff_not, ← alookup_none_iff]
  cases alookup k l <;> simp

/-! ## Diff-set lemmas (`compare_hashes`, lines 49-55) -/

theorem mem_addedOf (MS MR : Manifest) (k : Path) :
    k ∈ addedOf MS MR ↔ k ∈ keysOf MS ∧ alookup k MR = none := by
  simp [addedOf, List.mem_filter, Option.isNone_iff_eq_none, keysOf]

theorem mem_removedOf (MS MR : Manifest) (k : Path) :
    k ∈ removedOf MS MR ↔ k ∈ keysOf MR ∧ alookup k MS = none := by
  simp [removedOf, List.mem_filter, Option.isNone_iff_eq_none, keysOf]

theorem mem_modifiedOf (MS MR : Manifest) (k : Path) :
    k ∈ modifiedOf MS MR ↔
      k ∈ keysOf MS ∧ ∃ vR, alookup k MR = some vR ∧ alookup k MS ≠ some vR := by
  simp only [modifiedOf, List.mem_filter]
  constructor
  · rintro ⟨h1, h2⟩
    refine ⟨h1, ?_⟩
    cases hR : alookup k MR with
    | none => rw [hR] at h2; simp at h2
    | some vR => rw [hR] at h2; exact ⟨vR, rfl, by simpa using h2⟩
  · rintro ⟨h1, vR, hR, hne⟩
    exact ⟨h1, by rw [hR]; simpa using hne⟩

end FSync

namespace FSync

theorem mem_keysOf (m : Manifest) (k : Path) :
    k ∈ keysOf m ↔ ∃ v, alookup k m = some v :=
  mem_keys_iff_alookup k m

/-- C4: for every pair of manifests the three diff sets are pairwise
disjoint, and every member of any of them is a key of one of the two
manifests. -/
theorem c4_diff_sets_disjoint (MS MR : Manifest) :
    (∀ k, ¬(k ∈ addedOf MS MR ∧ k ∈ removedOf MS MR)) ∧
    (∀ k, ¬(k ∈ addedOf MS MR ∧ k ∈ modifiedOf MS MR)) ∧
    (∀ k, ¬(k ∈ removedOf MS MR ∧ k ∈ modifiedOf MS MR)) ∧
    (∀ k, (k ∈ addedOf MS MR ∨ k ∈ removedOf MS MR ∨ k ∈ modifiedOf MS MR) →
      k ∈ keysOf MS ∨ k ∈ keysOf MR) := by
  refine ⟨?_, ?_, ?_, ?_⟩
  · rintro k ⟨ha, hr⟩
    rw [mem_addedOf] at ha
    rw [mem_removedOf] at hr
    rcases (mem_keysOf MR k).mp hr.1 with ⟨v, hv⟩
    rw [ha.2] at hv
    cases hv
  · rintro k ⟨ha, hm⟩
    rw [mem_addedOf] at ha
    rw [mem_modifiedOf] at hm
    rcases hm.2 with ⟨vR, hvR, _⟩
    rw [ha.2] at hvR
    cases hvR
  · rintro k ⟨hr, hm⟩
    rw [mem_removedOf] at hr
    rw [mem_modifiedOf] at hm
    rcases (mem_keysOf MS k).mp hm.1 with ⟨v, hv⟩
    rw [hr.2] at hv
    cases hv
  · rintro k (h | h | h)
    · exact Or.inl ((mem_addedOf MS MR k).mp h).1
    · exact Or.inr ((mem_removedOf MS MR k).mp h).1
    · exact Or.inl ((mem_modifiedOf MS MR k).mp h).1

/-- C5: diffing any manifest against itself yields three empty sets, so a
second pass over unchanged manifests performs no actions. -/
theorem c5_diff_self_empty (A : Manifest) :
    addedOf A A = [] ∧ removedOf A A = [] ∧ modifiedOf A A = [] := by
  refine ⟨?_, ?_, ?_⟩
  · rw [addedOf, List.filter_eq_nil_iff]
    intro k hk
    rcases (mem_keysOf A k).mp hk with ⟨v, hv⟩
    simp [hv]
  · rw [removedOf, List.filter_eq_nil_iff]
    intro k hk
    rcases (mem_keysOf A k).mp hk with ⟨v, hv⟩
    simp [hv]
  · rw [modifiedOf, List.filter_eq_nil_iff]
    intro k hk
    rcases (mem_keysOf A k).mp hk with ⟨v, hv⟩
    simp [hv]

/-- C2 counterexample: a key that is a `Directory` (`None` value) in the
source manifest and a `File` (digest value) in the replica manifest *is*
classified as modified by `compare_hashes`, since the comparison
`source_hash[k] != replica_hash[k]` compares raw dict values. -/
theorem c2_counterexample :
    alookup ["x"] [(["x"], (none : Option String))] = some none ∧
    ["x"] ∈ modifiedOf [(["x"], (none : Option String))]
      [(["x"], some "0cc175b9c0f1b6a831c399e269772661")] := by
  decide

/-- C2 (amended): the modified set contains exactly the keys present in
both manifests whose stored entries differ — both-files with different
digests *or* a directory marker on one side and a digest on the other; a
key that is a directory in both manifests (equal `none` values) is
absent. -/
theorem c2_modified_iff_values_differ (MS MR : Manifest) (k : Path) :
    k ∈ modifiedOf MS MR ↔
      ∃ vS vR, alookup k MS = some vS ∧ alookup k MR = some vR ∧ vS ≠ vR := by
  rw [mem_modifiedOf]
  constructor
  · rintro ⟨hk, vR, hR, hne⟩
    rcases (mem_keysOf MS k).mp hk with ⟨vS, hS⟩
    refine ⟨vS, vR, hS, hR, fun he => hne ?_⟩
    rw [hS, he]
  · rintro ⟨vS, vR, hS, hR, hne⟩
    refine ⟨(mem_keysOf MS k).mpr ⟨vS, hS⟩, vR, hR, ?_⟩
    rw [hS]
    simpa using hne

/-! ## Chunked-hash lemmas (`_calculate_file_hash`) -/

theorem readChunks_flatten (n : Nat) (h : 0 < n) (c : List Nat) :
    (readChunks n c).flatten = c := by
  rw [readChunks]
  by_cases hc : c = []
  · simp [hc]
  · rw [if_neg hc, if_neg (Nat.pos_iff_ne_zero.mp h)]
    rw [List.flatten_cons, readChunks_flatten n h (c.drop n)]
    exact List.take_append_drop n c
termination_by c.length
decreasing_by
  simp only [List.length_drop]
  have := List.length_pos.mpr hc
  omega

theorem foldl_append_eq (l : List (List Nat)) (acc : List Nat) :
    l.foldl (fun a ch => a ++ ch) acc = acc ++ l.flatten := by
  induction l generalizing acc with
  | nil => simp
  | cons x xs ih => simp [ih, List.append_assoc]

theorem md5Bytes_length (msg : List Nat) : (md5Bytes msg).length = 16 := by
  simp [md5Bytes, md5Final, wordLE]

theorem hexChar_mem (n : Nat) (h : n < 16) :
    ('0' ≤ hexChar n ∧ hexChar n ≤ '9') ∨
      ('a' ≤ hexChar n ∧ hexChar n ≤ 'f') := by
  interval_cases n <;> decide

theorem flatMap_byteHex_length (l : List Nat) :
    (l.flatMap byteHex).length = 2 * l.length := by
  induction l with
  | nil => simp
  | cons b rest ih =>
    simp only [List.flatMap_cons, List.length_append, ih, byteHex,
      List.length_cons, List.length_nil]
    omega

theorem md5HexChars_length (msg : List Nat) :
    (md5HexChars msg).length = 32 := by
  rw [md5HexChars, flatMap_byteHex_length, md5Bytes_length]

theorem mem_md5HexChars (msg : List Nat) (ch : Char)
    (h : ch ∈ md5HexChars msg) :
    ('0' ≤ ch ∧ ch ≤ '9') ∨ ('a' ≤ ch ∧ ch ≤ 'f') := by
  rw [md5HexChars] at h
  rcases List.mem_flatMap.mp h with ⟨b, _, hb⟩
  simp only [byteHex, List.mem_cons, List.not_mem_nil, or_false] at hb
  rcases hb with h1 | h1 <;> subst h1 <;>
    exact hexChar_mem _ (Nat.mod_lt _ (by norm_num))

end FSync

namespace FSync

theorem md5Hex_length (msg : List Nat) : (md5Hex msg).length = 32 := by
  simp [md5Hex, String.length, md5HexChars_length]

/-- C9: for every chunk size `n > 0` — in particular the default
1,000,000 of `_calculate_file_hash` — feeding the chunks of the content
to the incremental MD5 accumulator reproduces the whole content, so the
returned digest equals the one-shot MD5 of the entire byte contents,
encoded as 32 lowercase hexadecimal characters. -/
theorem c9_chunked_hash_eq (content : List Nat) (n : Nat) (h : 0 < n) :
    (readChunks n content).foldl (fun acc ch => acc ++ ch) [] = content ∧
    md5Hex ((readChunks n content).foldl (fun acc ch => acc ++ ch) []) =
      md5Hex content ∧
    calcFileHash content = md5Hex content ∧
    (md5Hex content).length = 32 ∧
    ∀ ch ∈ (md5Hex content).data,
      ('0' ≤ ch ∧ ch ≤ '9') ∨ ('a' ≤ ch ∧ ch ≤ 'f') := by
  have hjoin : ∀ m, 0 < m →
      (readChunks m content).foldl (fun acc ch => acc ++ ch) [] = content := by
    intro m hm
    rw [foldl_append_eq, readChunks_flatten m hm, List.nil_append]
  refine ⟨hjoin n h, by rw [hjoin n h], ?_, md5Hex_length content, ?_⟩
  · rw [calcFileHash, hjoin 1000000 (by norm_num)]
  · intro ch hch
    exact mem_md5HexChars content ch hch

/-- Witness for C9 at chunk size 2 and content "abc". -/
theorem c9_chunked_hash_eq_witness :
    (0 < 2) ∧
    ((readChunks 2 [97, 98, 99]).foldl (fun acc ch => acc ++ ch) [] =
        [97, 98, 99] ∧
     md5Hex ((readChunks 2 [97, 98, 99]).foldl (fun acc ch => acc ++ ch) []) =
        md5Hex [97, 98, 99] ∧
     calcFileHash [97, 98, 99] = md5Hex [97, 98, 99] ∧
     (md5Hex [97, 98, 99]).length = 32 ∧
     ∀ ch ∈ (md5Hex [97, 98, 99]).data,
       ('0' ≤ ch ∧ ch ≤ '9') ∨ ('a' ≤ ch ∧ ch ≤ 'f')) :=
  ⟨by decide, c9_chunked_hash_eq [97, 98, 99] 2 (by decide)⟩

end FSync

namespace FSync

/-! ## Child-list lemmas -/

theorem FSList.indList {motive : FSList → Prop} (h0 : motive .nil)
    (h1 : ∀ m t rest, motive rest → motive (.cons m t rest)) :
    ∀ ch : FSList, motive ch
  | .nil => h0
  | .cons m t rest => h1 m t rest (FSList.indList h0 h1 rest)


theorem lookupC_sizeOf {ch : FSList} {n : String} {sub : FSTree}
    (h : lookupC ch n = some sub) : sizeOf sub < sizeOf ch := by
  induction ch using FSList.indList with
  | h0 => cases h
  | h1 m t rest ih =>
    rw [lookupC] at h
    by_cases hm : m = n
    · rw [if_pos hm] at h
      cases h
      simp
      omega
    · rw [if_neg hm] at h
      have := ih h
      simp
      omega

theorem wfT_lookupC {ch : FSList} {n : String} {sub : FSTree}
    (hw : wfL ch = true) (h : lookupC ch n = some sub) : wfT sub = true := by
  induction ch using FSList.indList with
  | h0 => cases h
  | h1 m t rest ih =>
    rw [wfL] at hw
    simp only [Bool.and_eq_true] at hw
    rw [lookupC] at h
    by_cases hm : m = n
    · rw [if_pos hm] at h
      cases h
      exact hw.1.2
    · exact ih hw.2 (by rwa [if_neg hm] at h)

theorem wfL_rest {m : String} {t : FSTree} {rest : FSList}
    (hw : wfL (.cons m t rest) = true) :
    hasName rest m = false ∧ wfT t = true ∧ wfL rest = true := by
  rw [wfL] at hw
  simp only [Bool.and_eq_true, Bool.not_eq_true'] at hw
  exact ⟨hw.1.1, hw.1.2, hw.2⟩

theorem lookupC_none_of_hasName {ch : FSList} {n : String}
    (h : hasName ch n = false) : lookupC ch n = none := by
  rw [hasName] at h
  cases hl : lookupC ch n with
  | none => rfl
  | some t => rw [hl] at h; cases h

/-! ## Scan segment lookup lemmas -/

theorem alookup_scanLevel_nil (ch : FSList) : alookup [] (scanLevel ch) = none := by
  induction ch using FSList.indList with
  | h0 => rfl
  | h1 m t rest ih =>
    cases t <;> simp [scanLevel, alookup_append, alookup, ih]

theorem alookup_scanLevel_long (ch : FSList) (n : String) (p : Path)
    (hp : p ≠ []) : alookup (n :: p) (scanLevel ch) = none := by
  induction ch using FSList.indList with
  | h0 => rfl
  | h1 m t rest ih =>
    cases t <;> simp [scanLevel, alookup_append, alookup, ih, hp]

theorem alookup_scanLevel_absent (ch : FSList) (n : String)
    (h : hasName ch n = false) : alookup [n] (scanLevel ch) = none := by
  induction ch using FSList.indList with
  | h0 => rfl
  | h1 m t rest ih =>
    rw [hasName, lookupC] at h
    by_cases hm : m = n
    · rw [if_pos hm] at h
      cases h
    · rw [if_neg hm] at h
      have hne : ¬([m] : Path) = [n] := by simp [hm]
      have ih' := ih (by rwa [hasName])
      cases t <;> simp [scanLevel, alookup_append, alookup, hne, ih']

theorem alookup_scanLevel_single (ch : FSList) (hw : wfL ch = true) (n : String) :
    alookup [n] (scanLevel ch) =
      match lookupC ch n with
      | some (.dir _) => some none
      | _ => none := by
  induction ch using FSList.indList with
  | h0 => rfl
  | h1 m t rest ih =>
    obtain ⟨hnm, _, hwr⟩ := wfL_rest hw
    rw [lookupC]
    by_cases hm : m = n
    · subst hm
      have habs : alookup [m] (scanLevel rest) = none :=
        alookup_scanLevel_absent rest m hnm
      cases t <;> simp [scanLevel, alookup_append, alookup, habs]
    · have hne : ¬([m] : Path) = [n] := by simp [hm]
      have ih' := ih hwr
      cases t <;> simp [scanLevel, alookup_append, alookup, hne, if_neg hm, ih']

theorem alookup_filesLevel_nil (ch : FSList) :
    alookup [] (filesLevel ch) = none := by
  induction ch using FSList.indList with
  | h0 => rfl
  | h1 m t rest ih =>
    rcases t with ⟨c, r⟩ | ch' <;> [cases r; skip] <;>
      simp [filesLevel, alookup_append, alookup, ih]

theorem alookup_filesLevel_long (ch : FSList) (n : String) (p : Path)
    (hp : p ≠ []) : alookup (n :: p) (filesLevel ch) = none := by
  induction ch using FSList.indList with
  | h0 => rfl
  | h1 m t rest ih =>
    rcases t with ⟨c, r⟩ | ch' <;> [cases r; skip] <;>
      simp [filesLevel, alookup_append, alookup, ih, hp]

theorem alookup_filesLevel_absent (ch : FSList) (n : String)
    (h : hasName ch n = false) : alookup [n] (filesLevel ch) = none := by
  induction ch using FSList.indList with
  | h0 => rfl
  | h1 m t rest ih =>
    rw [hasName, lookupC] at h
    by_cases hm : m = n
    · rw [if_pos hm] at h
      cases h
    · rw [if_neg hm] at h
      have hne : ¬([m] : Path) = [n] := by simp [hm]
      have ih' := ih (by rwa [hasName])
      rcases t with ⟨c, r⟩ | ch' <;> [cases r; skip] <;>
        simp [filesLevel, alookup_append, alookup, hne, ih']

theorem alookup_filesLevel_single (ch : FSList) (hw : wfL ch = true)
    (n : String) :
    alookup [n] (filesLevel ch) =
      match lookupC ch n with
      | some (.file c true) => some (some (md5Hex c))
      | _ => none := by
  induction ch using FSList.indList with
  | h0 => rfl
  | h1 m t rest ih =>
    obtain ⟨hnm, _, hwr⟩ := wfL_rest hw
    rw [lookupC]
    by_cases hm : m = n
    · subst hm
      have habs : alookup [m] (filesLevel rest) = none :=
        alookup_filesLevel_absent rest m hnm
      rcases t with ⟨c, r⟩ | ch' <;> [cases r; skip] <;>
        simp [filesLevel, alookup_append, alookup, habs]
    · have hne : ¬([m] : Path) = [n] := by simp [hm]
      have ih' := ih hwr
      rcases t with ⟨c, r⟩ | ch' <;> [cases r; skip] <;>
        simp [filesLevel, alookup_append, alookup, hne, if_neg hm, ih']


theorem alookup_map_consKey {α : Type} (m : String) (l : List (Path × α))
    (n : String) (p : Path) :
    alookup (n :: p) (l.map (fun e => (m :: e.1, e.2))) =
      if m = n then alookup p l else none := by
  induction l with
  | nil => simp [alookup]
  | cons e rest ih =>
    simp only [List.map_cons, alookup]
    by_cases hm : m = n
    · subst hm
      by_cases hp : e.1 = p
      · simp [hp]
      · have hne : ¬(m :: e.1 = m :: p) := by simp [hp]
        simp [hne, hp, ih]
    · have hne : ¬(m :: e.1 = n :: p) := by simp [hm]
      simp [hne, ih, hm]

theorem hasName_cons (m : String) (t : FSTree) (rest : FSList) (n : String) :
    hasName (.cons m t rest) n = if m = n then true else hasName rest n := by
  rw [hasName, lookupC]
  by_cases hm : m = n <;> simp [hm, hasName]

theorem alookup_append3_nn {α : Type} (k : Path) (a b c : List (Path × α))
    (ha : alookup k a = none) (hb : alookup k b = none) :
    alookup k (a ++ b ++ c) = alookup k c := by
  simp [alookup_append, ha, hb]

theorem alookup_append3_first {α : Type} (k : Path) (a b c : List (Path × α))
    (v : α) (ha : alookup k a = some v) :
    alookup k (a ++ b ++ c) = some v := by
  simp [alookup_append, ha]

theorem alookup_append3_second {α : Type} (k : Path) (a b c : List (Path × α))
    (v : α) (ha : alookup k a = none) (hb : alookup k b = some v) :
    alookup k (a ++ b ++ c) = some v := by
  simp [alookup_append, ha, hb]

theorem mem_scanSub_head (ch : FSList) :
    ∀ e ∈ scanSub ch, ∃ m q, e.1 = m :: q ∧ hasName ch m = true := by
  induction ch using FSList.indList with
  | h0 => intro e he; cases he
  | h1 m t rest ih =>
    intro e he
    cases t with
    | file c r =>
      simp only [scanSub, List.nil_append] at he
      rcases ih e he with ⟨m', q, hq, hname⟩
      refine ⟨m', q, hq, ?_⟩
      rw [hasName_cons]
      by_cases hmm : m = m' <;> simp [hmm, hname]
    | dir ch' =>
      simp only [scanSub] at he
      rcases List.mem_append.mp he with hmem | hr
      · rcases List.mem_map.mp hmem with ⟨e', _, hee⟩
        refine ⟨m, e'.1, by rw [← hee], ?_⟩
        simp [hasName, lookupC]
      · rcases ih e hr with ⟨m', q, hq, hname⟩
        refine ⟨m', q, hq, ?_⟩
        rw [hasName_cons]
        by_cases hmm : m = m' <;> simp [hmm, hname]

theorem alookup_scanSub_nil (ch : FSList) : alookup [] (scanSub ch) = none := by
  rw [alookup_none_iff]
  intro h
  rcases List.mem_map.mp h with ⟨e, he, h1⟩
  rcases mem_scanSub_head ch e he with ⟨m, q, hq, _⟩
  rw [h1] at hq
  cases hq

theorem alookup_scanSub_absent (ch : FSList) (n : String) (p : Path)
    (h : hasName ch n = false) : alookup (n :: p) (scanSub ch) = none := by
  rw [alookup_none_iff]
  intro hmem
  rcases List.mem_map.mp hmem with ⟨e, he, h1⟩
  rcases mem_scanSub_head ch e he with ⟨m, q, hq, hname⟩
  rw [h1] at hq
  cases hq
  rw [hname] at h
  cases h

theorem alookup_scanSub_cons (ch : FSList) (hw : wfL ch = true) (n : String)
    (p : Path) :
    alookup (n :: p) (scanSub ch) =
      match lookupC ch n with
      | some (.dir ch') => alookup p (scanDir (.dir ch'))
      | _ => none := by
  induction ch using FSList.indList with
  | h0 => rfl
  | h1 m t rest ih =>
    obtain ⟨hnm, _, hwr⟩ := wfL_rest hw
    rw [lookupC]
    by_cases hm : m = n
    · subst hm
      have habs : alookup (m :: p) (scanSub rest) = none :=
        alookup_scanSub_absent rest m p hnm
      cases t with
      | file c r => simp [scanSub, alookup_append, habs]
      | dir ch' =>
        rw [if_pos rfl]
        have hmap := alookup_map_consKey m (scanDir (.dir ch')) m p
        rw [if_pos rfl] at hmap
        cases hval : alookup p (scanDir (.dir ch')) with
        | none => simp [scanSub, alookup_append, hmap, hval, habs]
        | some v => simp [scanSub, alookup_append, hmap, hval]
    · have ih' := ih hwr
      cases t with
      | file c r => simpa [scanSub, alookup_append, if_neg hm] using ih'
      | dir ch' =>
        have hmap := alookup_map_consKey m (scanDir (.dir ch')) n p
        rw [if_neg hm] at hmap
        simpa [scanSub, alookup_append, hmap, if_neg hm] using ih'

theorem alookup_scanSub_dir (ch : FSList) (hw : wfL ch = true) {n : String}
    {ch' : FSList} (hl : lookupC ch n = some (.dir ch')) (p : Path) :
    alookup (n :: p) (scanSub ch) = alookup p (scanDir (.dir ch')) := by
  rw [alookup_scanSub_cons ch hw n p, hl]

theorem alookup_scanSub_file (ch : FSList) (hw : wfL ch = true) {n : String}
    {c : List Nat} {r : Bool} (hl : lookupC ch n = some (.file c r))
    (p : Path) : alookup (n :: p) (scanSub ch) = none := by
  rw [alookup_scanSub_cons ch hw n p, hl]

theorem alookup_scanSub_none (ch : FSList) (hw : wfL ch = true) {n : String}
    (hl : lookupC ch n = none) (p : Path) :
    alookup (n :: p) (scanSub ch) = none := by
  rw [alookup_scanSub_cons ch hw n p, hl]

/-- Faithfulness of the walk: looking a path up in the manifest built by
`process_directory` returns exactly the digest-level view of the tree at
that path. -/
theorem scanDir_alookup (t : FSTree) (hw : wfT t = true) (p : Path) :
    alookup p (scanDir t) = viewScan t p := by
  cases t with
  | file c r =>
    cases p <;> simp [scanDir, alookup, viewScan, getNode]
  | dir ch =>
    have hwl : wfL ch = true := by rwa [wfT] at hw
    cases p with
    | nil =>
      rw [scanDir, alookup_append3_nn _ _ _ _ (alookup_scanLevel_nil ch)
        (alookup_filesLevel_nil ch), alookup_scanSub_nil]
      rfl
    | cons n p' =>
      rcases hl : lookupC ch n with _ | sub
      · have h3 := alookup_scanSub_none ch hwl hl p'
        have h1 : alookup (n :: p') (scanLevel ch) = none := by
          cases p' with
          | nil => rw [alookup_scanLevel_single ch hwl n, hl]
          | cons a b => exact alookup_scanLevel_long ch n _ (by simp)
        have h2 : alookup (n :: p') (filesLevel ch) = none := by
          cases p' with
          | nil => rw [alookup_filesLevel_single ch hwl n, hl]
          | cons a b => exact alookup_filesLevel_long ch n _ (by simp)
        rw [scanDir, alookup_append3_nn _ _ _ _ h1 h2, h3]
        simp [viewScan, getNode, hl]
      · rcases sub with ⟨c, r⟩ | ch'
        · have h3 := alookup_scanSub_file ch hwl hl p'
          have h1 : alookup (n :: p') (scanLevel ch) = none := by
            cases p' with
            | nil => rw [alookup_scanLevel_single ch hwl n, hl]
            | cons a b => exact alookup_scanLevel_long ch n _ (by simp)
          cases p' with
          | nil =>
            have h2 := alookup_filesLevel_single ch hwl n
            rw [hl] at h2
            cases r
            · rw [scanDir, alookup_append3_nn _ _ _ _ h1 h2, h3]
              simp [viewScan, getNode, hl]
            · rw [scanDir, alookup_append3_second _ _ _ _ _ h1 h2]
              simp [viewScan, getNode, hl]
          | cons a b =>
            have h2 : alookup (n :: a :: b) (filesLevel ch) = none :=
              alookup_filesLevel_long ch n _ (by simp)
            rw [scanDir, alookup_append3_nn _ _ _ _ h1 h2, h3]
            simp [viewScan, getNode, hl]
        · have hwsub : wfT (.dir ch') = true := wfT_lookupC hwl hl
          have h3 := alookup_scanSub_dir ch hwl hl p'
          cases p' with
          | nil =>
            have h1 := alookup_scanLevel_single ch hwl n
            rw [hl] at h1
            rw [scanDir, alookup_append3_first _ _ _ _ _ h1]
            simp [viewScan, getNode, hl]
          | cons a b =>
            have h1 : alookup (n :: a :: b) (scanLevel ch) = none :=
              alookup_scanLevel_long ch n _ (by simp)
            have h2 : alookup (n :: a :: b) (filesLevel ch) = none :=
              alookup_filesLevel_long ch n _ (by simp)
            have hrec := scanDir_alookup (.dir ch') hwsub (a :: b)
            rw [scanDir, alookup_append3_nn _ _ _ _ h1 h2, h3, hrec]
            simp [viewScan, getNode, hl]
termination_by sizeOf t
decreasing_by
  subst_vars
  have h1 := lookupC_sizeOf hl
  simp at h1 ⊢
  omega


/-! ## Multiplicity of manifest keys -/

def keyCount (q : Path) (l : List (Path × Option String)) : Nat :=
  l.countP (fun e => decide (e.1 = q))

theorem keyCount_append (q : Path) (a b : List (Path × Option String)) :
    keyCount q (a ++ b) = keyCount q a + keyCount q b :=
  List.countP_append _ a b

theorem cnt_map_consKey (m : String) (l : List (Path × Option String))
    (n : String) (p : Path) :
    keyCount (n :: p) (l.map (fun e => (m :: e.1, e.2))) =
      if m = n then keyCount p l else 0 := by
  induction l with
  | nil => simp [keyCount]
  | cons e rest ih =>
    simp only [keyCount, List.map_cons, List.countP_cons] at ih ⊢
    rw [ih]
    by_cases hm : m = n
    · subst hm
      by_cases hp : e.1 = p
      · simp [hp]
      · simp [hp, show ¬(m :: e.1 = m :: p) from by simp [hp]]
    · simp [hm, show ¬(m :: e.1 = n :: p) from by simp [hm]]

theorem cnt_scanLevel_nil (ch : FSList) : keyCount [] (scanLevel ch) = 0 := by
  induction ch using FSList.indList with
  | h0 => rfl
  | h1 m t rest ih =>
    cases t <;> simp [scanLevel, keyCount, List.countP_cons] at * <;> exact ih

theorem cnt_scanLevel_long (ch : FSList) (n : String) (p : Path)
    (hp : p ≠ []) : keyCount (n :: p) (scanLevel ch) = 0 := by
  induction ch using FSList.indList with
  | h0 => rfl
  | h1 m t rest ih =>
    cases t <;> simp [scanLevel, keyCount, List.countP_cons, hp] at * <;>
      exact ih

theorem cnt_scanLevel_absent (ch : FSList) (n : String)
    (h : hasName ch n = false) : keyCount [n] (scanLevel ch) = 0 := by
  induction ch using FSList.indList with
  | h0 => rfl
  | h1 m t rest ih =>
    rw [hasName, lookupC] at h
    by_cases hm : m = n
    · rw [if_pos hm] at h
      cases h
    · rw [if_neg hm] at h
      have hne : ¬([m] : Path) = [n] := by simp [hm]
      have ih' := ih (by rwa [hasName])
      cases t <;> simp [scanLevel, keyCount, List.countP_cons, hne] at * <;>
        exact ih'

theorem cnt_scanLevel_single (ch : FSList) (hw : wfL ch = true) (n : String) :
    keyCount [n] (scanLevel ch) =
      match lookupC ch n with
      | some (.dir _) => 1
      | _ => 0 := by
  induction ch using FSList.indList with
  | h0 => rfl
  | h1 m t rest ih =>
    obtain ⟨hnm, _, hwr⟩ := wfL_rest hw
    rw [lookupC]
    by_cases hm : m = n
    · subst hm
      have habs : keyCount [m] (scanLevel rest) = 0 :=
        cnt_scanLevel_absent rest m hnm
      cases t <;> simp [scanLevel, keyCount, List.countP_cons] at * <;>
        exact habs
    · have hne : ¬([m] : Path) = [n] := by simp [hm]
      have ih' := ih hwr
      cases t <;>
        simp [scanLevel, keyCount, List.countP_cons, hne, if_neg hm] at * <;>
        exact ih'

theorem cnt_filesLevel_nil (ch : FSList) : keyCount [] (filesLevel ch) = 0 := by
  induction ch using FSList.indList with
  | h0 => rfl
  | h1 m t rest ih =>
    rcases t with ⟨c, r⟩ | ch' <;> [cases r; skip] <;>
      simp [filesLevel, keyCount, List.countP_cons] at * <;> exact ih

theorem cnt_filesLevel_long (ch : FSList) (n : String) (p : Path)
    (hp : p ≠ []) : keyCount (n :: p) (filesLevel ch) = 0 := by
  induction ch using FSList.indList with
  | h0 => rfl
  | h1 m t rest ih =>
    rcases t with ⟨c, r⟩ | ch' <;> [cases r; skip] <;>
      simp [filesLevel, keyCount, List.countP_cons, hp] at * <;> exact ih

theorem cnt_filesLevel_absent (ch : FSList) (n : String)
    (h : hasName ch n = false) : keyCount [n] (filesLevel ch) = 0 := by
  induction ch using FSList.indList with
  | h0 => rfl
  | h1 m t rest ih =>
    rw [hasName, lookupC] at h
    by_cases hm : m = n
    · rw [if_pos hm] at h
      cases h
    · rw [if_neg hm] at h
      have hne : ¬([m] : Path) = [n] := by simp [hm]
      have ih' := ih (by rwa [hasName])
      rcases t with ⟨c, r⟩ | ch' <;> [cases r; skip] <;>
        simp [filesLevel, keyCount, List.countP_cons, hne] at * <;> exact ih'

theorem cnt_filesLevel_single (ch : FSList) (hw : wfL ch = true) (n : String) :
    keyCount [n] (filesLevel ch) =
      match lookupC ch n with
      | some (.file _ true) => 1
      | _ => 0 := by
  induction ch using FSList.indList with
  | h0 => rfl
  | h1 m t rest ih =>
    obtain ⟨hnm, _, hwr⟩ := wfL_rest hw
    rw [lookupC]
    by_cases hm : m = n
    · subst hm
      have habs : keyCount [m] (filesLevel rest) = 0 :=
        cnt_filesLevel_absent rest m hnm
      rcases t with ⟨c, r⟩ | ch' <;> [cases r; skip] <;>
        simp [filesLevel, keyCount, List.countP_cons] at * <;> exact habs
    · have hne : ¬([m] : Path) = [n] := by simp [hm]
      have ih' := ih hwr
      rcases t with ⟨c, r⟩ | ch' <;> [cases r; skip] <;>
        simp [filesLevel, keyCount, List.countP_cons, hne, if_neg hm] at * <;>
        exact ih'

theorem cnt_zero_of_no_mem (q : Path) (l : List (Path × Option String))
    (h : ∀ e ∈ l, e.1 ≠ q) : keyCount q l = 0 := by
  rw [keyCount, List.countP_eq_zero]
  intro e he
  simp [h e he]

theorem cnt_scanSub_nil (ch : FSList) : keyCount [] (scanSub ch) = 0 := by
  apply cnt_zero_of_no_mem
  intro e he
  rcases mem_scanSub_head ch e he with ⟨m, q, hq, _⟩
  rw [hq]
  simp

theorem cnt_scanSub_absent (ch : FSList) (n : String) (p : Path)
    (h : hasName ch n = false) : keyCount (n :: p) (scanSub ch) = 0 := by
  apply cnt_zero_of_no_mem
  intro e he
  rcases mem_scanSub_head ch e he with ⟨m, q, hq, hname⟩
  rw [hq]
  intro hcontra
  cases hcontra
  rw [hname] at h
  cases h

theorem cnt_scanDir_nilkey (t : FSTree) : keyCount [] (scanDir t) = 0 := by
  cases t with
  | file c r => rfl
  | dir ch =>
    rw [scanDir, keyCount_append, keyCount_append, cnt_scanLevel_nil,
      cnt_filesLevel_nil, cnt_scanSub_nil]

theorem cnt_scanSub_cons (ch : FSList) (hw : wfL ch = true) (n : String)
    (p : Path) :
    keyCount (n :: p) (scanSub ch) =
      match lookupC ch n with
      | some (.dir ch') => keyCount p (scanDir (.dir ch'))
      | _ => 0 := by
  induction ch using FSList.indList with
  | h0 => rfl
  | h1 m t rest ih =>
    obtain ⟨hnm, _, hwr⟩ := wfL_rest hw
    rw [lookupC]
    by_cases hm : m = n
    · subst hm
      have habs : keyCount (m :: p) (scanSub rest) = 0 :=
        cnt_scanSub_absent rest m p hnm
      cases t with
      | file c r =>
        have heq : keyCount (m :: p) (scanSub (.cons m (.file c r) rest)) =
            keyCount (m :: p) (scanSub rest) := rfl
        rw [heq, habs, if_pos rfl]
      | dir ch' =>
        have hmap := cnt_map_consKey m (scanDir (.dir ch')) m p
        rw [if_pos rfl] at hmap
        rw [if_pos rfl]
        have heq : keyCount (m :: p) (scanSub (.cons m (.dir ch') rest)) =
            keyCount (m :: p) ((scanDir (.dir ch')).map
              (fun e => (m :: e.1, e.2))) + keyCount (m :: p) (scanSub rest) := by
          rw [← keyCount_append]
          rfl
        rw [heq, hmap, habs]
        simp
    · have ih' := ih hwr
      rw [if_neg hm]
      cases t with
      | file c r =>
        have heq : keyCount (n :: p) (scanSub (.cons m (.file c r) rest)) =
            keyCount (n :: p) (scanSub rest) := rfl
        rw [heq, ih']
      | dir ch' =>
        have hmap := cnt_map_consKey m (scanDir (.dir ch')) n p
        rw [if_neg hm] at hmap
        have heq : keyCount (n :: p) (scanSub (.cons m (.dir ch') rest)) =
            keyCount (n :: p) ((scanDir (.dir ch')).map
              (fun e => (m :: e.1, e.2))) + keyCount (n :: p) (scanSub rest) := by
          rw [← keyCount_append]
          rfl
        rw [heq, hmap, ih']
        omega

theorem cnt_scanSub_dir (ch : FSList) (hw : wfL ch = true) {n : String}
    {ch' : FSList} (hl : lookupC ch n = some (.dir ch')) (p : Path) :
    keyCount (n :: p) (scanSub ch) = keyCount p (scanDir (.dir ch')) := by
  rw [cnt_scanSub_cons ch hw n p, hl]

theorem cnt_scanSub_file (ch : FSList) (hw : wfL ch = true) {n : String}
    {c : List Nat} {r : Bool} (hl : lookupC ch n = some (.file c r))
    (p : Path) : keyCount (n :: p) (scanSub ch) = 0 := by
  rw [cnt_scanSub_cons ch hw n p, hl]

theorem cnt_scanSub_none (ch : FSList) (hw : wfL ch = true) {n : String}
    (hl : lookupC ch n = none) (p : Path) :
    keyCount (n :: p) (scanSub ch) = 0 := by
  rw [cnt_scanSub_cons ch hw n p, hl]

/-- Each path appears in the manifest exactly once when it denotes an
entry the scan records, and not at all otherwise. -/
theorem cnt_scanDir (t : FSTree) (hw : wfT t = true) (q : Path) :
    keyCount q (scanDir t) =
      match viewScan t q with
      | none => 0
      | some _ => 1 := by
  cases t with
  | file c r =>
    cases q <;> simp [scanDir, keyCount, viewScan, getNode]
  | dir ch =>
    have hwl : wfL ch = true := by rwa [wfT] at hw
    cases q with
    | nil =>
      rw [cnt_scanDir_nilkey]
      rfl
    | cons n p' =>
      have hsplit : keyCount (n :: p') (scanDir (.dir ch)) =
          keyCount (n :: p') (scanLevel ch) +
          keyCount (n :: p') (filesLevel ch) +
          keyCount (n :: p') (scanSub ch) := by
        rw [← keyCount_append, ← keyCount_append]
        rfl
      rcases hl : lookupC ch n with _ | sub
      · have hsub := cnt_scanSub_none ch hwl hl p'
        have h1 : keyCount (n :: p') (scanLevel ch) = 0 := by
          cases p' with
          | nil => rw [cnt_scanLevel_single ch hwl n, hl]
          | cons a b => exact cnt_scanLevel_long ch n _ (by simp)
        have h2 : keyCount (n :: p') (filesLevel ch) = 0 := by
          cases p' with
          | nil => rw [cnt_filesLevel_single ch hwl n, hl]
          | cons a b => exact cnt_filesLevel_long ch n _ (by simp)
        rw [hsplit, h1, h2, hsub]
        simp [viewScan, getNode, hl]
      · rcases sub with ⟨c, r⟩ | ch'
        · have hsub := cnt_scanSub_file ch hwl hl p'
          have h1 : keyCount (n :: p') (scanLevel ch) = 0 := by
            cases p' with
            | nil => rw [cnt_scanLevel_single ch hwl n, hl]
            | cons a b => exact cnt_scanLevel_long ch n _ (by simp)
          cases p' with
          | nil =>
            have h2 := cnt_filesLevel_single ch hwl n
            rw [hl] at h2
            cases r <;> rw [hsplit, h1, h2, hsub] <;>
              simp [viewScan, getNode, hl]
          | cons a b =>
            have h2 : keyCount (n :: a :: b) (filesLevel ch) = 0 :=
              cnt_filesLevel_long ch n _ (by simp)
            rw [hsplit, h1, h2, hsub]
            simp [viewScan, getNode, hl]
        · have hwsub : wfT (.dir ch') = true := wfT_lookupC hwl hl
          have hsub := cnt_scanSub_dir ch hwl hl p'
          have h2 : keyCount (n :: p') (filesLevel ch) = 0 := by
            cases p' with
            | nil => rw [cnt_filesLevel_single ch hwl n, hl]
            | cons a b => exact cnt_filesLevel_long ch n _ (by simp)
          cases p' with
          | nil =>
            have h1 := cnt_scanLevel_single ch hwl n
            rw [hl] at h1
            rw [hsplit, h1, h2, hsub, cnt_scanDir_nilkey]
            simp [viewScan, getNode, hl]
          | cons a b =>
            have h1 : keyCount (n :: a :: b) (scanLevel ch) = 0 :=
              cnt_scanLevel_long ch n _ (by simp)
            have hrec := cnt_scanDir (.dir ch') hwsub (a :: b)
            rw [hsplit, h1, h2, hsub, hrec]
            have hvw : viewScan (.dir ch) (n :: a :: b) =
                viewScan (.dir ch') (a :: b) := by
              simp [viewScan, getNode, hl]
            rw [hvw]
            simp
termination_by sizeOf t
decreasing_by
  subst_vars
  have h1 := lookupC_sizeOf hl
  simp at h1 ⊢
  omega


/-! ## Readability and the scan view -/

theorem allReadable_lookupC {ch : FSList} {n : String} {sub : FSTree}
    (h : allReadableL ch = true) (hl : lookupC ch n = some sub) :
    allReadableT sub = true := by
  induction ch using FSList.indList with
  | h0 => cases hl
  | h1 m t rest ih =>
    rw [allReadableL, Bool.and_eq_true] at h
    rw [lookupC] at hl
    by_cases hm : m = n
    · rw [if_pos hm] at hl
      cases hl
      exact h.1
    · rw [if_neg hm] at hl
      exact ih h.2 hl

theorem allReadable_getNode (p : Path) :
    ∀ (t : FSTree), allReadableT t = true →
      ∀ {c : List Nat} {r : Bool}, getNode t p = some (.file c r) → r = true := by
  induction p with
  | nil =>
    intro t hr c r hg
    rw [getNode] at hg
    injection hg with h
    subst h
    exact hr
  | cons n p' ih =>
    intro t hr c r hg
    cases t with
    | file c' r' => cases hg
    | dir ch =>
      rw [getNode] at hg
      cases hl : lookupC ch n with
      | none => rw [hl] at hg; cases hg
      | some sub =>
        rw [hl] at hg
        exact ih sub (allReadable_lookupC hr hl) hg

theorem viewScan_eq_treeDigestView (t : FSTree) (hr : allReadableT t = true)
    (p : Path) : viewScan t p = treeDigestView t p := by
  rw [viewScan, treeDigestView]
  by_cases hp : p = []
  · simp [hp]
  · rw [if_neg hp, if_neg hp]
    cases hg : getNode t p with
    | none => rfl
    | some u =>
      cases u with
      | dir ch => rfl
      | file c r =>
        have := allReadable_getNode p t hr hg
        subst this
        rfl

/-- C6: for a well-formed tree with no read errors, the manifest built by
`process_directory` has exactly one entry per file (relative path mapped
to the file's digest) and one per non-root subdirectory (mapped to the
`None` marker), nothing else, and the root itself is not a key. -/
theorem c6_scan_manifest_exact (t : FSTree) (hw : wfT t = true)
    (hr : allReadableT t = true) :
    (∀ p, alookup p (scanDir t) = treeDigestView t p) ∧
    (∀ p, keyCount p (scanDir t) =
      match treeDigestView t p with
      | none => 0
      | some _ => 1) ∧
    alookup [] (scanDir t) = none := by
  have h1 : ∀ p, alookup p (scanDir t) = treeDigestView t p := fun p => by
    rw [scanDir_alookup t hw p, viewScan_eq_treeDigestView t hr p]
  refine ⟨h1, fun p => ?_, ?_⟩
  · rw [cnt_scanDir t hw p, viewScan_eq_treeDigestView t hr p]
  · rw [h1 []]
    rfl

/-- Witness for C6 at a small concrete tree with one file and one
subdirectory holding a file. -/
theorem c6_scan_manifest_exact_witness :
    (wfT (.dir (.cons "a" (.file [1] true)
        (.cons "d" (.dir (.cons "f" (.file [2] true) .nil)) .nil))) = true) ∧
    (allReadableT (.dir (.cons "a" (.file [1] true)
        (.cons "d" (.dir (.cons "f" (.file [2] true) .nil)) .nil))) = true) ∧
    ((∀ p, alookup p (scanDir (.dir (.cons "a" (.file [1] true)
        (.cons "d" (.dir (.cons "f" (.file [2] true) .nil)) .nil)))) =
        treeDigestView (.dir (.cons "a" (.file [1] true)
        (.cons "d" (.dir (.cons "f" (.file [2] true) .nil)) .nil))) p) ∧
     (∀ p, keyCount p (scanDir (.dir (.cons "a" (.file [1] true)
        (.cons "d" (.dir (.cons "f" (.file [2] true) .nil)) .nil)))) =
       match treeDigestView (.dir (.cons "a" (.file [1] true)
        (.cons "d" (.dir (.cons "f" (.file [2] true) .nil)) .nil))) p with
       | none => 0
       | some _ => 1) ∧
     alookup [] (scanDir (.dir (.cons "a" (.file [1] true)
        (.cons "d" (.dir (.cons "f" (.file [2] true) .nil)) .nil)))) = none) :=
  ⟨by decide, by decide,
   c6_scan_manifest_exact _ (by decide) (by decide)⟩


/-! ## Child replacement and the read-error repair view -/

theorem lookupC_replaceC (ch : FSList) (n : String) (u : FSTree) (m : String) :
    lookupC (replaceC ch n u) m =
      if m = n then (lookupC ch n).map (fun _ => u) else lookupC ch m := by
  induction ch using FSList.indList with
  | h0 => by_cases h : m = n <;> simp [replaceC, lookupC, h]
  | h1 m' t rest ih =>
    rw [replaceC, lookupC]
    by_cases h1 : m' = m
    · subst h1
      by_cases h2 : m' = n
      · subst h2
        simp [lookupC]
      · simp [lookupC, h2, if_neg h2]
    · rw [if_neg h1, ih]
      by_cases h2 : m = n
      · subst h2
        rw [if_pos rfl, if_pos rfl, lookupC, if_neg h1]
      · rw [if_neg h2, if_neg h2, lookupC, if_neg h1]

theorem hasName_replaceC (ch : FSList) (n : String) (u : FSTree) (m : String) :
    hasName (replaceC ch n u) m = hasName ch m := by
  rw [hasName, hasName, lookupC_replaceC]
  by_cases h : m = n
  · subst h
    simp
  · rw [if_neg h]

theorem wfL_replaceC (ch : FSList) (n : String) (u : FSTree)
    (hw : wfL ch = true) (hu : wfT u = true) :
    wfL (replaceC ch n u) = true := by
  induction ch using FSList.indList with
  | h0 => rfl
  | h1 m t rest ih =>
    obtain ⟨hnm, hwt, hwr⟩ := wfL_rest hw
    rw [replaceC, wfL, hasName_replaceC, hnm]
    simp only [Bool.not_false, Bool.true_and, Bool.and_eq_true]
    refine ⟨?_, ih hwr⟩
    by_cases h : m = n
    · rw [if_pos h]
      exact hu
    · rw [if_neg h]
      exact hwt

theorem getNode_cons (ch : FSList) (n : String) (p : Path) :
    getNode (.dir ch) (n :: p) =
      match lookupC ch n with
      | some sub => getNode sub p
      | none => none := rfl

theorem nview_cons {ch : FSList} {n : String} {sub : FSTree}
    (hl : lookupC ch n = some sub) (p : Path) :
    nview (.dir ch) (n :: p) = nview sub p := by
  rw [nview, nview, getNode_cons, hl]

theorem nview_cons_none {ch : FSList} {n : String}
    (hl : lookupC ch n = none) (p : Path) :
    nview (.dir ch) (n :: p) = none := by
  rw [nview, getNode_cons, hl]

theorem wfT_markReadable (p : Path) : ∀ (t : FSTree), wfT t = true →
    wfT (markReadable t p) = true := by
  induction p with
  | nil =>
    intro t hw
    cases t with
    | file c r => rfl
    | dir ch => exact hw
  | cons n p' ih =>
    intro t hw
    cases t with
    | file c r => exact hw
    | dir ch =>
      have hwl : wfL ch = true := by rwa [wfT] at hw
      cases hl : lookupC ch n with
      | none => simp only [markReadable, hl]; exact hw
      | some sub =>
        simp only [markReadable, hl]
        rw [wfT]
        exact wfL_replaceC ch n _ hwl (ih sub (wfT_lookupC hwl hl))

theorem nview_markReadable (p : Path) :
    ∀ (t : FSTree) {c : List Nat} {r0 : Bool},
      getNode t p = some (.file c r0) →
      ∀ q, nview (markReadable t p) q =
        if q = p then some (some (c, true)) else nview t q := by
  induction p with
  | nil =>
    intro t c r0 hg q
    rw [getNode] at hg
    injection hg with h
    subst h
    cases q with
    | nil => rfl
    | cons a b =>
      have hne : ¬((a :: b : Path) = []) := by simp
      rw [if_neg hne]
      rfl
  | cons n p' ih =>
    intro t c r0 hg q
    cases t with
    | file c' r' => cases hg
    | dir ch =>
      rw [getNode_cons] at hg
      cases hl : lookupC ch n with
      | none => rw [hl] at hg; cases hg
      | some sub =>
        rw [hl] at hg
        simp only [markReadable, hl]
        cases q with
        | nil =>
          have hne : ¬(([] : Path) = n :: p') := by simp
          rw [if_neg hne]
          rfl
        | cons a b =>
          by_cases ha : a = n
          · subst ha
            have hl2 : lookupC (replaceC ch a (markReadable sub p')) a =
                some (markReadable sub p') := by
              rw [lookupC_replaceC, if_pos rfl, hl]
              rfl
            rw [nview_cons hl2, ih sub hg b]
            by_cases hb : b = p'
            · subst hb
              rw [if_pos rfl, if_pos rfl]
            · have hne : ¬((a :: b : Path) = a :: p') := by simp [hb]
              rw [if_neg hb, if_neg hne, nview_cons hl]
          · have hl2 : lookupC (replaceC ch n (markReadable sub p')) a =
                lookupC ch a := by
              rw [lookupC_replaceC, if_neg ha]
            have hne : ¬((a :: b : Path) = n :: p') := by simp [ha]
            rw [if_neg hne]
            cases hla : lookupC ch a with
            | none =>
              rw [nview_cons_none (by rw [hl2, hla]) b,
                nview_cons_none hla b]
            | some w =>
              rw [nview_cons (by rw [hl2, hla]) b, nview_cons hla b]

theorem viewScan_nview (t : FSTree) (q : Path) :
    viewScan t q =
      if q = [] then none
      else
        match nview t q with
        | none => none
        | some none => some none
        | some (some (c, true)) => some (some (md5Hex c))
        | some (some (_, false)) => none := by
  rw [viewScan, nview]
  by_cases hq : q = []
  · simp [hq]
  · rw [if_neg hq, if_neg hq]
    rcases hg : getNode t q with _ | u
    · rfl
    · cases u with
      | file c r => cases r <;> rfl
      | dir ch => rfl

theorem viewScan_eq_of_nview (t t' : FSTree) (q : Path)
    (h : nview t q = nview t' q) : viewScan t q = viewScan t' q := by
  rw [viewScan_nview, viewScan_nview, h]

theorem getNode_of_nview_file {t : FSTree} {p : Path} {c : List Nat}
    {r : Bool} (h : nview t p = some (some (c, r))) :
    getNode t p = some (.file c r) := by
  rw [nview] at h
  rcases hg : getNode t p with _ | u <;> rw [hg] at h
  · cases h
  · cases u with
    | file c' r' =>
      injection h with h1
      injection h1 with h2
      injection h2 with h3 h4
      subst h3
      subst h4
      rfl
    | dir ch => cases h

/-- C7: a file whose read raises during `process_directory` is omitted
from that pass's manifest (the exception is caught, the scan returns
normally), while every other path's manifest entry is exactly what the
scan of the tree with that file readable would produce — the walk
continues over all remaining entries. -/
theorem c7_unreadable_file_skipped (t : FSTree) (p : Path) (c : List Nat)
    (hw : wfT t = true) (hp : p ≠ [])
    (hg : getNode t p = some (.file c false)) :
    alookup p (scanDir t) = none ∧
    alookup p (scanDir (markReadable t p)) = some (some (md5Hex c)) ∧
    ∀ q, q ≠ p → alookup q (scanDir t) = alookup q (scanDir (markReadable t p)) := by
  have hwm : wfT (markReadable t p) = true := wfT_markReadable p t hw
  have hscan := scanDir_alookup t hw
  have hscanm := scanDir_alookup (markReadable t p) hwm
  have hnv := nview_markReadable p t hg
  refine ⟨?_, ?_, ?_⟩
  · rw [hscan p, viewScan, if_neg hp, hg]
  · have hget : getNode (markReadable t p) p = some (.file c true) := by
      apply getNode_of_nview_file
      rw [hnv p, if_pos rfl]
    rw [hscanm p, viewScan, if_neg hp, hget]
  · intro q hq
    rw [hscan q, hscanm q]
    apply viewScan_eq_of_nview
    rw [hnv q, if_neg hq]

/-- Witness for C7: a tree whose file "b" is unreadable. -/
theorem c7_unreadable_file_skipped_witness :
    (wfT (.dir (.cons "a" (.file [1] true)
        (.cons "b" (.file [2] false) .nil))) = true) ∧
    ((["b"] : Path) ≠ []) ∧
    (getNode (.dir (.cons "a" (.file [1] true)
        (.cons "b" (.file [2] false) .nil))) ["b"] =
      some (.file [2] false)) ∧
    (alookup ["b"] (scanDir (.dir (.cons "a" (.file [1] true)
        (.cons "b" (.file [2] false) .nil)))) = none ∧
     alookup ["b"] (scanDir (markReadable (.dir (.cons "a" (.file [1] true)
        (.cons "b" (.file [2] false) .nil))) ["b"])) =
        some (some (md5Hex [2])) ∧
     ∀ q, q ≠ ["b"] →
       alookup q (scanDir (.dir (.cons "a" (.file [1] true)
          (.cons "b" (.file [2] false) .nil)))) =
       alookup q (scanDir (markReadable (.dir (.cons "a" (.file [1] true)
          (.cons "b" (.file [2] false) .nil))) ["b"]))) :=
  ⟨by decide, by decide, by rfl,
   c7_unreadable_file_skipped _ ["b"] [2] (by decide) (by decide) (by rfl)⟩


theorem alookup_eq_of_mem (l : Manifest) (p : Path) (v : Option String)
    (hmem : (p, v) ∈ l) (hcnt : keyCount p l ≤ 1) : alookup p l = some v := by
  induction l with
  | nil => cases hmem
  | cons e rest ih =>
    rw [alookup]
    rcases List.mem_cons.mp hmem with he | hrest
    · rw [← he]
      simp
    · by_cases hep : e.1 = p
      · exfalso
        have h1 : 0 < keyCount p rest :=
          List.countP_pos_iff.mpr ⟨(p, v), hrest, by simp⟩
        have h2 : keyCount p (e :: rest) = keyCount p rest + 1 := by
          simp [keyCount, List.countP_cons, hep]
        omega
      · rw [if_neg hep]
        apply ih hrest
        have h2 : keyCount p (e :: rest) = keyCount p rest := by
          simp [keyCount, List.countP_cons, hep]
        omega

/-- C10: in every manifest produced by a scan of a well-formed tree, an
entry's value is the `None` directory marker exactly when the entry was
recorded for a directory, and every file entry carries the 32-character
lowercase hexadecimal digest of that (readable) file's contents. -/
theorem c10_manifest_entry_kinds (t : FSTree) (hw : wfT t = true) :
    ∀ p v, (p, v) ∈ scanDir t →
      ((v = none ↔ ∃ ch', getNode t p = some (.dir ch')) ∧
       ∀ h, v = some h →
         ∃ c, getNode t p = some (.file c true) ∧ h = md5Hex c ∧
           h.length = 32 ∧
           ∀ ch ∈ h.data,
             ('0' ≤ ch ∧ ch ≤ '9') ∨ ('a' ≤ ch ∧ ch ≤ 'f')) := by
  intro p v hmem
  have hcnt : keyCount p (scanDir t) ≤ 1 := by
    rw [cnt_scanDir t hw p]
    cases viewScan t p <;> simp
  have hal : alookup p (scanDir t) = some v :=
    alookup_eq_of_mem _ p v hmem hcnt
  rw [scanDir_alookup t hw p, viewScan] at hal
  by_cases hp : p = []
  · rw [if_pos hp] at hal
    cases hal
  · rw [if_neg hp] at hal
    rcases hg : getNode t p with _ | u
    · rw [hg] at hal
      cases hal
    · rw [hg] at hal
      cases u with
      | dir ch' =>
        injection hal with h1
        subst h1
        constructor
        · simp
        · intro h hcontra
          cases hcontra
      | file c r =>
        cases r
        · cases hal
        · injection hal with h1
          subst h1
          constructor
          · constructor
            · intro hcontra
              cases hcontra
            · rintro ⟨ch', hch'⟩
              cases hch'
          · intro h hh
            injection hh with h2
            subst h2
            exact ⟨c, rfl, rfl, md5Hex_length c,
              fun ch hch => mem_md5HexChars c ch hch⟩

/-- Witness for C10 on a concrete two-entry tree, instantiated at the
directory entry. -/
theorem c10_manifest_entry_kinds_witness :
    (wfT (.dir (.cons "a" (.file [1] true)
        (.cons "d" (.dir .nil) .nil))) = true) ∧
    ((["d"], (none : Option String)) ∈ scanDir (.dir (.cons "a" (.file [1] true)
        (.cons "d" (.dir .nil) .nil))) ∧
     (((none : Option String) = none ↔
        ∃ ch', getNode (.dir (.cons "a" (.file [1] true)
          (.cons "d" (.dir .nil) .nil))) ["d"] = some (.dir ch')) ∧
      ∀ h, (none : Option String) = some h →
        ∃ c, getNode (.dir (.cons "a" (.file [1] true)
            (.cons "d" (.dir .nil) .nil))) ["d"] = some (.file c true) ∧
          h = md5Hex c ∧ h.length = 32 ∧
          ∀ ch ∈ h.data,
            ('0' ≤ ch ∧ ch ≤ '9') ∨ ('a' ≤ ch ∧ ch ≤ 'f'))) :=
  ⟨by decide,
   by
    refine ⟨?_, ?_⟩
    · decide
    · exact c10_manifest_entry_kinds _ (by decide) ["d"] none (by decide)⟩


/-! ## Removal: `removed_files` handling -/

theorem pfx_nil_left (p : Path) : pfx [] p = true := rfl

theorem pfx_cons_nil (a : String) (q : Path) : pfx (a :: q) [] = false := rfl

theorem pfx_cons_cons (a b : String) (q p : Path) :
    pfx (a :: q) (b :: p) = if a = b then pfx q p else false := rfl

theorem lookupC_removeC (ch : FSList) (n m : String) :
    lookupC (removeC ch n) m = if m = n then none else lookupC ch m := by
  induction ch using FSList.indList with
  | h0 => by_cases h : m = n <;> simp [removeC, lookupC, h]
  | h1 m' t rest ih =>
    rw [removeC]
    by_cases h1 : m' = n
    · subst h1
      rw [if_pos rfl, ih]
      by_cases h2 : m = m'
      · subst h2
        rw [if_pos rfl, if_pos rfl]
      · rw [if_neg h2, if_neg h2, lookupC, if_neg (fun he => h2 he.symm)]
    · rw [if_neg h1, lookupC]
      by_cases h2 : m' = m
      · subst h2
        rw [if_pos rfl, if_neg (fun he => h1 he), lookupC, if_pos rfl]
      · rw [if_neg h2, ih, lookupC, if_neg h2]

theorem wfL_removeC (ch : FSList) (n : String) (hw : wfL ch = true) :
    wfL (removeC ch n) = true := by
  induction ch using FSList.indList with
  | h0 => rfl
  | h1 m t rest ih =>
    obtain ⟨hnm, hwt, hwr⟩ := wfL_rest hw
    rw [removeC]
    by_cases h1 : m = n
    · rw [if_pos h1]
      exact ih hwr
    · have hname : hasName (removeC rest n) m = false := by
        rw [hasName, lookupC_removeC, if_neg h1, ← hasName, hnm]
      rw [if_neg h1, wfL, hname, hwt]
      simp only [Bool.not_false, Bool.true_and]
      exact ih hwr

theorem nview_deletePath : ∀ (p : Path) (t : FSTree), wfT t = true → p ≠ [] →
    wfT (deletePath t p) = true ∧
    ∀ q, nview (deletePath t p) q =
      if pfx p q = true then none else nview t q := by
  intro p
  induction p with
  | nil => intro t _ hp; exact absurd rfl hp
  | cons n p2 ih =>
    intro t hw _
    cases t with
    | file c r =>
      refine ⟨hw, fun q => ?_⟩
      by_cases hq : pfx (n :: p2) q = true
      · rw [if_pos hq]
        cases q with
        | nil => rw [pfx_cons_nil] at hq; cases hq
        | cons a b => rfl
      · rw [if_neg hq]
        rfl
    | dir ch =>
      have hwl : wfL ch = true := by rwa [wfT] at hw
      cases p2 with
      | nil =>
        refine ⟨by rw [deletePath, wfT]; exact wfL_removeC ch n hwl,
          fun q => ?_⟩
        cases q with
        | nil => rw [pfx_cons_nil, if_neg (by simp)]; rfl
        | cons a b =>
          rw [deletePath, pfx_cons_cons]
          by_cases ha : n = a
          · subst ha
            rw [if_pos rfl, pfx_nil_left, if_pos rfl]
            exact nview_cons_none (by rw [lookupC_removeC, if_pos rfl]) b
          · rw [if_neg ha, if_neg (by simp)]
            cases hla : lookupC ch a with
            | none =>
              rw [nview_cons_none
                (by rw [lookupC_removeC, if_neg (fun he => ha he.symm), hla]) b,
                nview_cons_none hla b]
            | some w =>
              rw [nview_cons
                (show lookupC (removeC ch n) a = some w by
                  rw [lookupC_removeC, if_neg (fun he => ha he.symm), hla]) b,
                nview_cons hla b]
      | cons m p' =>
        cases hl : lookupC ch n with
        | none =>
          simp only [deletePath, hl]
          refine ⟨hw, fun q => ?_⟩
          by_cases hq : pfx (n :: m :: p') q = true
          · rw [if_pos hq]
            cases q with
            | nil => rw [pfx_cons_nil] at hq; cases hq
            | cons a b =>
              rw [pfx_cons_cons] at hq
              by_cases ha : n = a
              · subst ha
                exact nview_cons_none hl b
              · rw [if_neg ha] at hq
                cases hq
          · rw [if_neg hq]
        | some sub =>
          have hwsub := wfT_lookupC hwl hl
          obtain ⟨hwd, hnv⟩ := ih sub hwsub (by simp)
          simp only [deletePath, hl]
          refine ⟨by rw [wfT]; exact wfL_replaceC ch n _ hwl hwd, fun q => ?_⟩
          cases q with
          | nil => rw [pfx_cons_nil, if_neg (by simp)]; rfl
          | cons a b =>
            rw [pfx_cons_cons]
            by_cases ha : n = a
            · subst ha
              rw [if_pos rfl]
              have hl2 : lookupC (replaceC ch n (deletePath sub (m :: p'))) n =
                  some (deletePath sub (m :: p')) := by
                rw [lookupC_replaceC, if_pos rfl, hl]
                rfl
              rw [nview_cons hl2, hnv b, nview_cons hl]
            · rw [if_neg ha, if_neg (by simp)]
              have hl2 : lookupC (replaceC ch n (deletePath sub (m :: p'))) a =
                  lookupC ch a := by
                rw [lookupC_replaceC, if_neg (fun he => ha he.symm)]
              cases hla : lookupC ch a with
              | none =>
                rw [nview_cons_none (by rw [hl2, hla]) b,
                  nview_cons_none hla b]
              | some w =>
                rw [nview_cons (by rw [hl2, hla]) b, nview_cons hla b]

/-- C8: for a path in the removed set, `compare_hashes` deletes the
replica entry — recursively with all descendants when it is a directory,
as a single file otherwise — and a path that no longer exists at apply
time is a no-op: the replica tree is returned unchanged, with no
exception (the function is total). -/
theorem c8_removed_semantics (t : FSTree) (p : Path) (hw : wfT t = true)
    (hp : p ≠ []) :
    (getNode t p ≠ none →
      wfT (removeAction t p) = true ∧
      nview (removeAction t p) p = none ∧
      (∀ q, pfx p q = true → nview (removeAction t p) q = none) ∧
      (∀ q, pfx p q = false → nview (removeAction t p) q = nview t q)) ∧
    (getNode t p = none → removeAction t p = t) := by
  constructor
  · intro hne
    have hra : removeAction t p = deletePath t p := by
      rcases hg : getNode t p with _ | u
      · exact absurd hg hne
      · cases u <;> simp [removeAction, hg]
    obtain ⟨hwd, hnv⟩ := nview_deletePath p t hw hp
    rw [hra]
    refine ⟨hwd, ?_, fun q hq => ?_, fun q hq => ?_⟩
    · rw [hnv p]
      have hself : pfx p p = true := by
        clear hnv hwd hra hne hw hp
        induction p with
        | nil => rfl
        | cons a q ih => rw [pfx_cons_cons, if_pos rfl, ih]
      rw [if_pos hself]
    · rw [hnv q, if_pos hq]
    · rw [hnv q, hq]
      simp
  · intro hg
    rw [removeAction, hg]

/-- Witness for C8 at a replica containing a directory with a child and
an unrelated file; instantiated with removal of the directory. -/
theorem c8_removed_semantics_witness :
    (wfT (.dir (.cons "keep" (.file [7] true)
        (.cons "old" (.dir (.cons "f" (.file [3] true) .nil)) .nil))) = true) ∧
    ((["old"] : Path) ≠ []) ∧
    ((getNode (.dir (.cons "keep" (.file [7] true)
        (.cons "old" (.dir (.cons "f" (.file [3] true) .nil)) .nil))) ["old"] ≠
        none →
      wfT (removeAction (.dir (.cons "keep" (.file [7] true)
        (.cons "old" (.dir (.cons "f" (.file [3] true) .nil)) .nil))) ["old"]) =
        true ∧
      nview (removeAction (.dir (.cons "keep" (.file [7] true)
        (.cons "old" (.dir (.cons "f" (.file [3] true) .nil)) .nil))) ["old"])
        ["old"] = none ∧
      (∀ q, pfx ["old"] q = true →
        nview (removeAction (.dir (.cons "keep" (.file [7] true)
          (.cons "old" (.dir (.cons "f" (.file [3] true) .nil)) .nil))) ["old"])
          q = none) ∧
      (∀ q, pfx ["old"] q = false →
        nview (removeAction (.dir (.cons "keep" (.file [7] true)
          (.cons "old" (.dir (.cons "f" (.file [3] true) .nil)) .nil))) ["old"])
          q =
        nview (.dir (.cons "keep" (.file [7] true)
          (.cons "old" (.dir (.cons "f" (.file [3] true) .nil)) .nil))) q)) ∧
     (getNode (.dir (.cons "keep" (.file [7] true)
        (.cons "old" (.dir (.cons "f" (.file [3] true) .nil)) .nil))) ["old"] =
        none →
      removeAction (.dir (.cons "keep" (.file [7] true)
        (.cons "old" (.dir (.cons "f" (.file [3] true) .nil)) .nil))) ["old"] =
      .dir (.cons "keep" (.file [7] true)
        (.cons "old" (.dir (.cons "f" (.file [3] true) .nil)) .nil)))) :=
  ⟨by decide, by decide,
   c8_removed_semantics _ ["old"] (by decide) (by decide)⟩


/-! ## Path-order utilities -/

theorem pfx_refl (p : Path) : pfx p p = true := by
  induction p with
  | nil => rfl
  | cons a q ih => rw [pfx_cons_cons, if_pos rfl, ih]

theorem pfx_append (q r : Path) : pfx q (q ++ r) = true := by
  induction q with
  | nil => rfl
  | cons a q' ih => rw [List.cons_append, pfx_cons_cons, if_pos rfl, ih]

theorem pfx_exists : ∀ {q p : Path}, pfx q p = true → ∃ r, p = q ++ r := by
  intro q
  induction q with
  | nil => intro p _; exact ⟨p, rfl⟩
  | cons a q' ih =>
    intro p h
    cases p with
    | nil => rw [pfx_cons_nil] at h; cases h
    | cons b p' =>
      rw [pfx_cons_cons] at h
      by_cases hab : a = b
      · subst hab
        rw [if_pos rfl] at h
        rcases ih h with ⟨r, hr⟩
        exact ⟨r, by rw [List.cons_append, ← hr]⟩
      · rw [if_neg hab] at h
        cases h

theorem pfx_trans : ∀ {a b c : Path}, pfx a b = true → pfx b c = true →
    pfx a c = true := by
  intro a
  induction a with
  | nil => intro b c _ _; rfl
  | cons x a' ih =>
    intro b c h1 h2
    cases b with
    | nil => rw [pfx_cons_nil] at h1; cases h1
    | cons y b' =>
      rw [pfx_cons_cons] at h1
      by_cases hxy : x = y
      · subst hxy
        rw [if_pos rfl] at h1
        cases c with
        | nil => rw [pfx_cons_nil] at h2; cases h2
        | cons z c' =>
          rw [pfx_cons_cons] at h2
          by_cases hyz : x = z
          · subst hyz
            rw [if_pos rfl] at h2
            rw [pfx_cons_cons, if_pos rfl]
            exact ih h1 h2
          · rw [if_neg hyz] at h2
            cases h2
      · rw [if_neg hxy] at h1
        cases h1

theorem pfx_length_le : ∀ {q p : Path}, pfx q p = true →
    q.length ≤ p.length := by
  intro q p h
  rcases pfx_exists h with ⟨r, hr⟩
  subst hr
  simp

theorem dropLast_append_left (q : Path) : ∀ (r : Path), r ≠ [] →
    (q ++ r).dropLast = q ++ r.dropLast := by
  induction q with
  | nil => intro r _; rfl
  | cons a q' ih =>
    intro r hr
    rw [List.cons_append]
    have hne : q' ++ r ≠ [] := by
      intro hcontra
      rcases List.append_eq_nil.mp hcontra with ⟨_, h2⟩
      exact hr h2
    cases hq : q' ++ r with
    | nil => exact absurd hq hne
    | cons b l =>
      rw [← hq, List.dropLast_cons_of_ne_nil hne, List.cons_append, ih r hr]

theorem pfx_dropLast {q p : Path} (h : pfx q p = true) (hne : q ≠ p) :
    pfx q p.dropLast = true := by
  rcases pfx_exists h with ⟨r, hr⟩
  subst hr
  have hrne : r ≠ [] := by
    intro hcontra
    subst hcontra
    exact hne (by simp)
  rw [dropLast_append_left q r hrne]
  exact pfx_append q r.dropLast

theorem pfx_dropLast_self (p : Path) : pfx p.dropLast p = true := by
  induction p with
  | nil => rfl
  | cons a q ih =>
    cases q with
    | nil => rfl
    | cons b q' =>
      have hd : (a :: b :: q' : Path).dropLast = a :: (b :: q' : Path).dropLast :=
        rfl
      rw [hd, pfx_cons_cons, if_pos rfl]
      exact ih

theorem dropLast_ne_self {p : Path} (hp : p ≠ []) : p.dropLast ≠ p := by
  intro hcontra
  have h1 : p.dropLast.length = p.length - 1 := List.length_dropLast p
  have h2 : 0 < p.length := List.length_pos.mpr hp
  rw [hcontra] at h1
  omega

theorem pfx_of_pfx_dropLast {q p : Path} (h : pfx q p.dropLast = true)
    (hp : p ≠ []) : pfx q p = true ∧ q ≠ p := by
  have h1 : pfx q p = true := pfx_trans h (pfx_dropLast_self p)
  refine ⟨h1, fun hcontra => ?_⟩
  subst hcontra
  have h2 := pfx_length_le h
  have h3 : q.dropLast.length = q.length - 1 := List.length_dropLast q
  have h4 : 0 < q.length := List.length_pos.mpr hp
  omega

/-! ## Node-level facts used by the convergence proof -/

theorem getNode_append (q : Path) : ∀ (r : Path) (t : FSTree),
    getNode t (q ++ r) =
      match getNode t q with
      | some u => getNode u r
      | none => none := by
  induction q with
  | nil => intro r t; cases t <;> rfl
  | cons n q' ih =>
    intro r t
    cases t with
    | file c rr => rfl
    | dir ch =>
      rw [List.cons_append, getNode_cons, getNode_cons]
      cases lookupC ch n with
      | none => rfl
      | some sub => exact ih r sub

theorem getNode_ancestor_dir {t : FSTree} {p q : Path}
    (hg : getNode t p ≠ none) (hpfx : pfx q p = true) (hne : q ≠ p) :
    ∃ ch', getNode t q = some (.dir ch') := by
  rcases pfx_exists hpfx with ⟨r, hr⟩
  subst hr
  have hrne : r ≠ [] := by
    intro hcontra
    subst hcontra
    exact hne (by simp)
  rw [getNode_append q r t] at hg
  rcases hq : getNode t q with _ | u
  · rw [hq] at hg
    exact absurd rfl hg
  · rw [hq] at hg
    cases u with
    | dir ch' => exact ⟨ch', rfl⟩
    | file c rr =>
      exfalso
      cases r with
      | nil => exact hrne rfl
      | cons a b => exact hg rfl

theorem viewScan_some_none {t : FSTree} {p : Path}
    (h : viewScan t p = some none) :
    p ≠ [] ∧ ∃ ch', getNode t p = some (.dir ch') := by
  rw [viewScan] at h
  by_cases hp : p = []
  · rw [if_pos hp] at h
    cases h
  · rw [if_neg hp] at h
    refine ⟨hp, ?_⟩
    rcases hg : getNode t p with _ | u <;> rw [hg] at h
    · cases h
    · cases u with
      | dir ch' => exact ⟨ch', rfl⟩
      | file c r => cases r <;> cases h

theorem viewScan_some_some {t : FSTree} {p : Path} {h0 : String}
    (h : viewScan t p = some (some h0)) :
    p ≠ [] ∧ ∃ c, getNode t p = some (.file c true) ∧ h0 = md5Hex c := by
  rw [viewScan] at h
  by_cases hp : p = []
  · rw [if_pos hp] at h
    cases h
  · rw [if_neg hp] at h
    refine ⟨hp, ?_⟩
    rcases hg : getNode t p with _ | u <;> rw [hg] at h
    · cases h
    · cases u with
      | dir ch' => cases h
      | file c r =>
        cases r
        · cases h
        · injection h with h1
          injection h1 with h2
          exact ⟨c, rfl, h2.symm⟩

theorem viewScan_none_nview {t : FSTree} {p : Path}
    (h : viewScan t p = none) (hp : p ≠ []) :
    nview t p = none ∨ ∃ c0, nview t p = some (some (c0, false)) := by
  rw [viewScan, if_neg hp] at h
  rw [nview]
  rcases hg : getNode t p with _ | u <;> rw [hg] at h
  · exact Or.inl rfl
  · cases u with
    | dir ch' => cases h
    | file c r =>
      cases r
      · exact Or.inr ⟨c, rfl⟩
      · cases h

theorem viewScan_ne_none_getNode {t : FSTree} {p : Path}
    (h : viewScan t p ≠ none) : getNode t p ≠ none := by
  intro hg
  apply h
  rw [viewScan, hg]
  by_cases hp : p = [] <;> simp [hp]

theorem nview_root_dir {t : FSTree} (h : isDirB t = true) :
    nview t [] = some none := by
  cases t with
  | file c r => cases h
  | dir ch => rfl

theorem nview_some_of_getNode_ne {t : FSTree} {p : Path}
    (h : getNode t p ≠ none) : nview t p ≠ none := by
  rcases hg : getNode t p with _ | u
  · exact absurd hg h
  · rw [nview, hg]
    cases u <;> simp

theorem nview_none_getNode {t : FSTree} {p : Path} (h : nview t p = none) :
    getNode t p = none := by
  rcases hg : getNode t p with _ | u
  · simp [hg]
  · exfalso
    rw [nview, hg] at h
    cases u <;> cases h

/-! ## No-flip facts -/

theorem mem_allPaths : ∀ (p : Path) (t : FSTree) (u : FSTree),
    getNode t p = some u → p ∈ allPaths t := by
  intro p
  induction p with
  | nil =>
    intro t u _
    cases t with
    | file c r => simp [allPaths]
    | dir ch => simp [allPaths]
  | cons n p' ih =>
    intro t u hg
    cases t with
    | file c r => cases hg
    | dir ch =>
      rw [getNode_cons] at hg
      rcases hl : lookupC ch n with _ | sub
      · rw [hl] at hg
        cases hg
      · rw [hl] at hg
        have hmem := ih sub u hg
        rw [allPaths]
        apply List.mem_cons_of_mem
        clear hg
        induction ch using FSList.indList with
        | h0 => cases hl
        | h1 m t0 rest ihc =>
          rw [lookupC] at hl
          rw [pathsL, List.mem_append]
          by_cases hm : m = n
          · rw [if_pos hm] at hl
            injection hl with hl2
            subst hl2
            subst hm
            exact Or.inl (List.mem_map.mpr ⟨p', hmem, rfl⟩)
          · rw [if_neg hm] at hl
            exact Or.inr (ihc hl)

theorem noFlip_DF {S R : FSTree} (h : noFlipB S R = true) :
    ∀ p (ch' : FSList), getNode S p = some (.dir ch') →
      ∀ c r, getNode R p ≠ some (.file c r) := by
  intro p ch' hgS c r hgR
  have hmem : p ∈ allPaths S := mem_allPaths p S _ hgS
  have hk := List.all_eq_true.mp h p hmem
  rw [nview, hgS, nview, hgR] at hk
  cases hk

theorem noFlip_FD {S R : FSTree} (h : noFlipB S R = true) :
    ∀ p (c : List Nat) (r : Bool), getNode S p = some (.file c r) →
      ∀ ch', getNode R p ≠ some (.dir ch') := by
  intro p c r hgS ch' hgR
  have hmem : p ∈ allPaths S := mem_allPaths p S _ hgS
  have hk := List.all_eq_true.mp h p hmem
  rw [nview, hgS, nview, hgR] at hk
  cases hk


/-! ## Appending a fresh child -/

theorem lookupC_snocC (ch : FSList) (n : String) (u : FSTree) (m : String) :
    lookupC (snocC ch n u) m =
      match lookupC ch m with
      | some w => some w
      | none => if m = n then some u else none := by
  induction ch using FSList.indList with
  | h0 =>
    rw [snocC, lookupC, lookupC]
    by_cases h : m = n
    · subst h
      rw [if_pos rfl, if_pos rfl]
    · rw [if_neg (fun he => h he.symm), if_neg h, lookupC]
  | h1 m' t rest ih =>
    rw [snocC, lookupC, lookupC]
    by_cases h1 : m' = m
    · rw [if_pos h1, if_pos h1]
    · rw [if_neg h1, if_neg h1, ih]

theorem wfL_snocC (ch : FSList) (n : String) (u : FSTree)
    (hw : wfL ch = true) (hu : wfT u = true) (hfresh : hasName ch n = false) :
    wfL (snocC ch n u) = true := by
  induction ch using FSList.indList with
  | h0 =>
    show (!hasName FSList.nil n && wfT u && wfL FSList.nil) = true
    rw [hu]
    rfl
  | h1 m t rest ih =>
    obtain ⟨hnm, hwt, hwr⟩ := wfL_rest hw
    rw [hasName, lookupC] at hfresh
    by_cases hmn : m = n
    · rw [if_pos hmn] at hfresh
      cases hfresh
    · rw [if_neg hmn] at hfresh
      rw [snocC, wfL]
      have hname : hasName (snocC rest n u) m = false := by
        rw [hasName, lookupC_snocC]
        cases hlm : lookupC rest m with
        | some w =>
          rw [hasName] at hnm
          rw [hlm] at hnm
          cases hnm
        | none =>
          rw [if_neg hmn]
          rfl
      rw [hname, hwt]
      simp only [Bool.not_false, Bool.true_and]
      exact ih hwr (by rwa [hasName])

/-! ## `os.makedirs(..., exist_ok=True)` -/

theorem makedirs_spec : ∀ (p : Path) (t : FSTree), wfT t = true →
    (∀ q, pfx q p = true → ∀ x, nview t q ≠ some (some x)) →
    ∃ t', makedirs t p = .ok t' ∧ wfT t' = true ∧
      ∀ q, nview t' q =
        if pfx q p = true ∧ nview t q = none then some none
        else nview t q := by
  intro p
  induction p with
  | nil =>
    intro t hw hblock
    cases t with
    | file c r =>
      exact absurd rfl (hblock [] rfl (c, r))
    | dir ch =>
      refine ⟨.dir ch, rfl, hw, fun q => ?_⟩
      rw [if_neg ?_]
      rintro ⟨h1, h2⟩
      cases q with
      | nil => cases h2
      | cons a b => rw [pfx_cons_nil] at h1; cases h1
  | cons n p' ih =>
    intro t hw hblock
    cases t with
    | file c r =>
      exact absurd rfl (hblock [] rfl (c, r))
    | dir ch =>
      have hwl : wfL ch = true := by rwa [wfT] at hw
      cases hl : lookupC ch n with
      | some sub =>
        have hwsub := wfT_lookupC hwl hl
        have hblock' : ∀ q, pfx q p' = true →
            ∀ x, nview sub q ≠ some (some x) := by
          intro q hq x hcontra
          apply hblock (n :: q) (by rw [pfx_cons_cons, if_pos rfl]; exact hq) x
          rw [nview_cons hl]
          exact hcontra
        rcases ih sub hwsub hblock' with ⟨sub', hmk, hwsub', hnv⟩
        refine ⟨.dir (replaceC ch n sub'), by simp only [makedirs, hl, hmk], ?_, ?_⟩
        · rw [wfT]
          exact wfL_replaceC ch n sub' hwl hwsub'
        · intro q
          cases q with
          | nil =>
            rw [if_neg ?_]
            · rfl
            · rintro ⟨_, h2⟩
              cases h2
          | cons a b =>
            by_cases ha : a = n
            · subst ha
              have hl2 : lookupC (replaceC ch a sub') a = some sub' := by
                rw [lookupC_replaceC, if_pos rfl, hl]
                rfl
              rw [nview_cons hl2, pfx_cons_cons, if_pos rfl, nview_cons hl]
              exact hnv b
            · have hl2 : lookupC (replaceC ch n sub') a = lookupC ch a := by
                rw [lookupC_replaceC, if_neg ha]
              have hpf : pfx (a :: b) (n :: p') = false := by
                rw [pfx_cons_cons, if_neg ha]
              rw [hpf]
              have hnv2 : nview (.dir (replaceC ch n sub')) (a :: b) =
                  nview (.dir ch) (a :: b) := by
                cases hla : lookupC ch a with
                | none =>
                  rw [nview_cons_none (by rw [hl2, hla]) b,
                    nview_cons_none hla b]
                | some w =>
                  rw [nview_cons (by rw [hl2, hla]) b, nview_cons hla b]
              rw [hnv2, if_neg (by rintro ⟨h1, _⟩; cases h1)]
      | none =>
        have hblock' : ∀ q, pfx q p' = true →
            ∀ x, nview (FSTree.dir .nil) q ≠ some (some x) := by
          intro q _ x hcontra
          cases q with
          | nil => cases hcontra
          | cons a b =>
            rw [nview_cons_none (by rw [lookupC]) b] at hcontra
            cases hcontra
        rcases ih (.dir .nil) rfl hblock' with ⟨sub', hmk, hwsub', hnv⟩
        refine ⟨.dir (snocC ch n sub'), by simp only [makedirs, hl, hmk], ?_, ?_⟩
        · rw [wfT]
          exact wfL_snocC ch n sub' hwl hwsub' (by rw [hasName, hl]; rfl)
        · intro q
          cases q with
          | nil =>
            rw [if_neg ?_]
            · rfl
            · rintro ⟨_, h2⟩
              cases h2
          | cons a b =>
            by_cases ha : a = n
            · subst ha
              have hl2 : lookupC (snocC ch a sub') a = some sub' := by
                rw [lookupC_snocC, hl, if_pos rfl]
              rw [nview_cons hl2, pfx_cons_cons, if_pos rfl,
                nview_cons_none hl b, hnv b]
              cases b with
              | nil =>
                rw [if_neg (fun hcon => Option.noConfusion hcon.2),
                  if_pos ⟨rfl, rfl⟩]
                rfl
              | cons x y =>
                have hnil : nview (FSTree.dir .nil) (x :: y) = none :=
                  nview_cons_none (by rw [lookupC]) y
                rw [hnil]
            · have hl2 : lookupC (snocC ch n sub') a = lookupC ch a := by
                rw [lookupC_snocC]
                cases hla : lookupC ch a with
                | some w => rfl
                | none => rw [if_neg ha]
              have hpf : pfx (a :: b) (n :: p') = false := by
                rw [pfx_cons_cons, if_neg ha]
              rw [hpf]
              have hnv2 : nview (.dir (snocC ch n sub')) (a :: b) =
                  nview (.dir ch) (a :: b) := by
                cases hla : lookupC ch a with
                | none =>
                  rw [nview_cons_none (by rw [hl2, hla]) b,
                    nview_cons_none hla b]
                | some w =>
                  rw [nview_cons (by rw [hl2, hla]) b, nview_cons hla b]
              rw [hnv2, if_neg (by rintro ⟨h1, _⟩; cases h1)]


/-! ## `shutil.copy2` onto a non-directory destination -/

theorem putFile_spec : ∀ (p : Path) (t : FSTree) (c : List Nat),
    wfT t = true → p ≠ [] →
    nview t p.dropLast = some none →
    nview t p ≠ some none →
    ∃ t', putFile t p c = .ok t' ∧ wfT t' = true ∧
      ∀ q, nview t' q =
        if q = p then some (some (c, true)) else nview t q := by
  intro p
  induction p with
  | nil => intro t c _ hp _ _; exact absurd rfl hp
  | cons n p2 ih =>
    intro t c hw _ hparent htarget
    cases t with
    | file cf rf =>
      exfalso
      cases p2 with
      | nil => exact Option.noConfusion (Option.some.inj hparent)
      | cons m p' => exact Option.noConfusion hparent
    | dir ch =>
      have hwl : wfL ch = true := by rwa [wfT] at hw
      cases p2 with
      | nil =>
        cases hl : lookupC ch n with
        | some sub =>
          cases sub with
          | dir ch' =>
            exact absurd ((nview_cons hl ([] : Path)).trans
              (rfl : nview (FSTree.dir ch') [] = some none)) htarget
          | file cf rf =>
            refine ⟨.dir (replaceC ch n (.file c true)), ?_, ?_, ?_⟩
            · simp only [putFile, hl]
            · rw [wfT]
              exact wfL_replaceC ch n _ hwl rfl
            · intro q
              cases q with
              | nil =>
                rw [if_neg (by simp)]
                rfl
              | cons a b =>
                by_cases ha : a = n
                · subst ha
                  have hl2 : lookupC (replaceC ch a (.file c true)) a =
                      some (.file c true) := by
                    rw [lookupC_replaceC, if_pos rfl, hl]
                    rfl
                  cases b with
                  | nil =>
                    rw [if_pos rfl, nview_cons hl2]
                    rfl
                  | cons x y =>
                    rw [if_neg (by simp), nview_cons hl2, nview_cons hl]
                    rfl
                · have hl2 : lookupC (replaceC ch n (.file c true)) a =
                      lookupC ch a := by
                    rw [lookupC_replaceC, if_neg ha]
                  rw [if_neg (by simp [ha])]
                  cases hla : lookupC ch a with
                  | none =>
                    rw [nview_cons_none (by rw [hl2, hla]) b,
                      nview_cons_none hla b]
                  | some w =>
                    rw [nview_cons (by rw [hl2, hla]) b, nview_cons hla b]
        | none =>
          refine ⟨.dir (snocC ch n (.file c true)), ?_, ?_, ?_⟩
          · simp only [putFile, hl]
          · rw [wfT]
            exact wfL_snocC ch n _ hwl rfl (by rw [hasName, hl]; rfl)
          · intro q
            cases q with
            | nil =>
              rw [if_neg (by simp)]
              rfl
            | cons a b =>
              by_cases ha : a = n
              · subst ha
                have hl2 : lookupC (snocC ch a (.file c true)) a =
                    some (.file c true) := by
                  rw [lookupC_snocC, hl, if_pos rfl]
                cases b with
                | nil =>
                  rw [if_pos rfl, nview_cons hl2]
                  rfl
                | cons x y =>
                  rw [if_neg (by simp), nview_cons hl2,
                    nview_cons_none hl (x :: y)]
                  rfl
              · have hl2 : lookupC (snocC ch n (.file c true)) a =
                    lookupC ch a := by
                  rw [lookupC_snocC]
                  cases hla : lookupC ch a with
                  | some w => rfl
                  | none => rw [if_neg ha]
                rw [if_neg (by simp [ha])]
                cases hla : lookupC ch a with
                | none =>
                  rw [nview_cons_none (by rw [hl2, hla]) b,
                    nview_cons_none hla b]
                | some w =>
                  rw [nview_cons (by rw [hl2, hla]) b, nview_cons hla b]
      | cons m p' =>
        have hparent' : nview (.dir ch) (n :: (m :: p' : Path).dropLast) =
            some none := hparent
        cases hl : lookupC ch n with
        | none =>
          exfalso
          rw [nview_cons_none hl] at hparent'
          exact Option.noConfusion hparent'
        | some sub =>
          have hwsub := wfT_lookupC hwl hl
          rw [nview_cons hl] at hparent'
          have htarget' : nview sub (m :: p') ≠ some none := by
            rw [← nview_cons hl]
            exact htarget
          rcases ih sub c hwsub (by simp) hparent' htarget' with
            ⟨sub', hput, hwsub', hnv⟩
          refine ⟨.dir (replaceC ch n sub'), ?_, ?_, ?_⟩
          · simp only [putFile, hl, hput]
          · rw [wfT]
            exact wfL_replaceC ch n _ hwl hwsub'
          · intro q
            cases q with
            | nil =>
              rw [if_neg (by simp)]
              rfl
            | cons a b =>
              by_cases ha : a = n
              · subst ha
                have hl2 : lookupC (replaceC ch a sub') a = some sub' := by
                  rw [lookupC_replaceC, if_pos rfl, hl]
                  rfl
                rw [nview_cons hl2, hnv b, nview_cons hl]
                by_cases hb : b = m :: p'
                · subst hb
                  rw [if_pos rfl, if_pos rfl]
                · rw [if_neg hb, if_neg (by simp [hb])]
              · have hl2 : lookupC (replaceC ch n sub') a = lookupC ch a := by
                  rw [lookupC_replaceC, if_neg ha]
                rw [if_neg (by simp [ha])]
                cases hla : lookupC ch a with
                | none =>
                  rw [nview_cons_none (by rw [hl2, hla]) b,
                    nview_cons_none hla b]
                | some w =>
                  rw [nview_cons (by rw [hl2, hla]) b, nview_cons hla b]


/-! ## The `added_files` fold -/

theorem except_bind_ok {α β : Type} (a : α) (f : α → Except String β) :
    (Except.ok a >>= f) = f a := rfl

theorem builtView_dir {S : FSTree} {q : Path} {ch' : FSList}
    (h : getNode S q = some (.dir ch')) : builtView S q = some none := by
  rw [builtView, h]

theorem builtView_file {S : FSTree} {q : Path} {c : List Nat} {r : Bool}
    (h : getNode S q = some (.file c r)) :
    builtView S q = some (some (c, true)) := by
  rw [builtView, h]

theorem viewScan_nil (t : FSTree) : viewScan t [] = none := by
  rw [viewScan, if_pos rfl]

theorem foldA_spec (S R : FSTree) (hflip : noFlipB S R = true) :
    ∀ (todo : List Path) (D : Path → Prop) (R0 : FSTree),
    wfT R0 = true →
    (∀ k, k ∈ todo → viewScan S k ≠ none ∧ viewScan R k = none) →
    (∀ q, D q → nview R0 q = builtView S q) →
    (∀ q, ¬ D q → nview R0 q = nview R q) →
    ∃ R1, todo.foldlM (applyAddedOne (some S)) R0 = .ok R1 ∧
      wfT R1 = true ∧
      (∀ q, (D q ∨ inAZone todo q) → nview R1 q = builtView S q) ∧
      (∀ q, ¬(D q ∨ inAZone todo q) → nview R1 q = nview R q) := by
  intro todo
  induction todo with
  | nil =>
    intro D R0 hw _ hIA hIB
    refine ⟨R0, rfl, hw, ?_, ?_⟩
    · intro q hq
      rcases hq with hD | ⟨k, hk, _⟩
      · exact hIA q hD
      · cases hk
    · intro q hq
      exact hIB q (fun hD => hq (Or.inl hD))
  | cons k todo' ih =>
    intro D R0 hw htodo hIA hIB
    obtain ⟨hkS, hkR⟩ := htodo k (List.mem_cons_self k todo')
    have hgSk : getNode S k ≠ none := viewScan_ne_none_getNode hkS
    have hknil : k ≠ [] := by
      intro hcontra
      subst hcontra
      exact hkS (viewScan_nil S)
    have hanc : ∀ q, pfx q k = true → q ≠ k →
        ∃ ch', getNode S q = some (.dir ch') :=
      fun q hq hne => getNode_ancestor_dir hgSk hq hne
    have hblockCommon : ∀ q, pfx q k = true → q ≠ k →
        ∀ x, nview R0 q ≠ some (some x) := by
      intro q hq hne x hcontra
      rcases x with ⟨xc, xr⟩
      rcases hanc q hq hne with ⟨ch', hgq⟩
      by_cases hD : D q
      · rw [hIA q hD, builtView_dir hgq] at hcontra
        cases hcontra
      · rw [hIB q hD] at hcontra
        exact noFlip_DF hflip q ch' hgq xc xr (getNode_of_nview_file hcontra)
    have hzone : (∀ q, pfx q k = true → q ≠ k →
        ∃ ch', getNode S q = some (.dir ch')) →
        ∀ (R0' : FSTree),
        (∀ q, nview R0' q =
          if pfx q k.dropLast = true ∧ nview R0 q = none then some none
          else nview R0 q) →
        ∀ q, pfx q k = true → q ≠ k → nview R0' q = builtView S q := by
      intro _ R0' hnv' q hp hne
      have hpd : pfx q k.dropLast = true := pfx_dropLast hp hne
      rcases hanc q hp hne with ⟨ch', hgq⟩
      rw [hnv' q]
      by_cases hnone : nview R0 q = none
      · rw [if_pos ⟨hpd, hnone⟩, builtView_dir hgq]
      · rw [if_neg (fun hcon => hnone hcon.2)]
        by_cases hD : D q
        · exact hIA q hD
        · rw [hIB q hD]
          rw [hIB q hD] at hnone
          rw [builtView_dir hgq]
          rcases hgR : getNode R q with _ | w
          · exact absurd (by rw [nview, hgR]) hnone
          · cases w with
            | dir chR => rw [nview, hgR]
            | file cR rR => exact absurd hgR (noFlip_DF hflip q ch' hgq cR rR)
    rcases hgSk' : getNode S k with _ | u
    · exact absurd hgSk' hgSk
    · cases u with
      | dir chS =>
        have hisdir : isDirAtO (some S) k = true := by
          rw [isDirAtO, getNodeO, hgSk']
        have hblock : ∀ q, pfx q k = true →
            ∀ x, nview R0 q ≠ some (some x) := by
          intro q hq x hcontra
          by_cases hne : q = k
          · subst hne
            rcases x with ⟨xc, xr⟩
            by_cases hD : D q
            · rw [hIA q hD, builtView_dir hgSk'] at hcontra
              cases hcontra
            · rw [hIB q hD] at hcontra
              exact noFlip_DF hflip q chS hgSk' xc xr
                (getNode_of_nview_file hcontra)
          · exact hblockCommon q hq hne x hcontra
        rcases makedirs_spec k R0 hw hblock with ⟨R0', hmk, hw', hnv'⟩
        have happ : applyAddedOne (some S) R0 k = .ok R0' := by
          rw [applyAddedOne, hisdir]
          simp [hmk]
        have hzoneK : ∀ q, pfx q k = true → nview R0' q = builtView S q := by
          intro q hp
          rw [hnv' q]
          by_cases hnone : nview R0 q = none
          · rw [if_pos ⟨hp, hnone⟩]
            by_cases hne : q = k
            · subst hne
              rw [builtView_dir hgSk']
            · rcases hanc q hp hne with ⟨ch', hgq⟩
              rw [builtView_dir hgq]
          · rw [if_neg (fun hcon => hnone hcon.2)]
            have hSdir : ∃ ch', getNode S q = some (.dir ch') := by
              by_cases hne : q = k
              · subst hne
                exact ⟨chS, hgSk'⟩
              · exact hanc q hp hne
            rcases hSdir with ⟨ch', hgq⟩
            by_cases hD : D q
            · exact hIA q hD
            · rw [hIB q hD]
              rw [hIB q hD] at hnone
              rw [builtView_dir hgq]
              rcases hgR : getNode R q with _ | w
              · exact absurd (by rw [nview, hgR]) hnone
              · cases w with
                | dir chR => rw [nview, hgR]
                | file cR rR =>
                  exact absurd hgR (noFlip_DF hflip q ch' hgq cR rR)
        have hIA' : ∀ q, (D q ∨ pfx q k = true) →
            nview R0' q = builtView S q := by
          intro q hq
          by_cases hp : pfx q k = true
          · exact hzoneK q hp
          · have hD : D q := by
              rcases hq with h | h
              · exact h
              · exact absurd h hp
            rw [hnv' q, if_neg (fun hcon => hp hcon.1)]
            exact hIA q hD
        have hIB' : ∀ q, ¬(D q ∨ pfx q k = true) →
            nview R0' q = nview R q := by
          intro q hq
          have hD : ¬D q := fun h => hq (Or.inl h)
          have hp : ¬pfx q k = true := fun h => hq (Or.inr h)
          rw [hnv' q, if_neg (fun hcon => hp hcon.1)]
          exact hIB q hD
        rcases ih (fun q => D q ∨ pfx q k = true) R0' hw'
          (fun k2 hk2 => htodo k2 (List.mem_cons_of_mem _ hk2)) hIA' hIB' with
          ⟨R1, hfold, hwR1, hA, hB⟩
        refine ⟨R1, ?_, hwR1, ?_, ?_⟩
        · rw [List.foldlM_cons, happ, except_bind_ok, hfold]
        · intro q hq
          rcases hq with hD | ⟨k2, hk2, hpf⟩
          · exact hA q (Or.inl (Or.inl hD))
          · rcases List.mem_cons.mp hk2 with he | hm
            · subst he
              exact hA q (Or.inl (Or.inr hpf))
            · exact hA q (Or.inr ⟨k2, hm, hpf⟩)
        · intro q hq
          apply hB
          rintro (hD' | hz)
          · rcases hD' with hD | hp
            · exact hq (Or.inl hD)
            · exact hq (Or.inr ⟨k, List.mem_cons_self k todo', hp⟩)
          · rcases hz with ⟨k2, hk2, hpf⟩
            exact hq (Or.inr ⟨k2, List.mem_cons_of_mem _ hk2, hpf⟩)
      | file cS rS =>
        have hrS : rS = true := by
          cases rS
          · exact absurd (by rw [viewScan, if_neg hknil, hgSk']) hkS
          · rfl
        subst hrS
        have hisdir : isDirAtO (some S) k = false := by
          rw [isDirAtO, getNodeO, hgSk']
        have hblock : ∀ q, pfx q k.dropLast = true →
            ∀ x, nview R0 q ≠ some (some x) := by
          intro q hq x
          obtain ⟨hqk, hne⟩ := pfx_of_pfx_dropLast hq hknil
          exact hblockCommon q hqk hne x
        rcases makedirs_spec k.dropLast R0 hw hblock with ⟨R0', hmk, hw', hnv'⟩
        have hnotpfx : ¬ pfx k k.dropLast = true := by
          intro h
          have h1 := pfx_length_le h
          have h2 : k.dropLast.length = k.length - 1 := List.length_dropLast k
          have h3 : 0 < k.length := List.length_pos.mpr hknil
          omega
        have hdstk : nview R0' k = nview R0 k := by
          rw [hnv' k, if_neg (fun hcon => hnotpfx hcon.1)]
        have hdst_nd : nview R0' k ≠ some none := by
          rw [hdstk]
          by_cases hD : D k
          · rw [hIA k hD, builtView_file hgSk']
            simp
          · rw [hIB k hD]
            rcases viewScan_none_nview hkR hknil with h | ⟨c0, h⟩
            · rw [h]
              simp
            · rw [h]
              simp
        have hparent : nview R0' k.dropLast = some none := by
          rw [hnv' k.dropLast]
          by_cases hnone : nview R0 k.dropLast = none
          · rw [if_pos ⟨pfx_refl _, hnone⟩]
          · rw [if_neg (fun hcon => hnone hcon.2)]
            rcases hanc k.dropLast (pfx_dropLast_self k)
              (dropLast_ne_self hknil) with ⟨ch', hgq⟩
            by_cases hD : D k.dropLast
            · rw [hIA _ hD, builtView_dir hgq]
            · rw [hIB _ hD]
              rw [hIB _ hD] at hnone
              rcases hgR : getNode R k.dropLast with _ | w
              · exact absurd (by rw [nview, hgR]) hnone
              · cases w with
                | dir chR => rw [nview, hgR]
                | file cR rR =>
                  exact absurd hgR (noFlip_DF hflip _ ch' hgq cR rR)
        rcases putFile_spec k R0' cS hw' hknil hparent hdst_nd with
          ⟨R0'', hput, hw'', hnv''⟩
        have hcf : copyFile (some S) k R0' k = putFile R0' k cS := by
          rcases hgd : getNode R0' k with _ | w
          · simp [copyFile, getNodeO, hgSk', hgd]
          · cases w with
            | dir chd => exact absurd (by rw [nview, hgd]) hdst_nd
            | file cd rd => simp [copyFile, getNodeO, hgSk', hgd]
        have happ : applyAddedOne (some S) R0 k = .ok R0'' := by
          rw [applyAddedOne, hisdir]
          simp [hmk, hcf, hput]
        have hzoneK := hzone hanc R0' hnv'
        have hIA' : ∀ q, (D q ∨ pfx q k = true) →
            nview R0'' q = builtView S q := by
          intro q hq
          by_cases hqk : q = k
          · subst hqk
            rw [hnv'' q, if_pos rfl, builtView_file hgSk']
          · rw [hnv'' q, if_neg hqk]
            by_cases hp : pfx q k = true
            · exact hzoneK q hp hqk
            · have hD : D q := by
                rcases hq with h | h
                · exact h
                · exact absurd h hp
              rw [hnv' q,
                if_neg (fun hcon => hp (pfx_of_pfx_dropLast hcon.1 hknil).1)]
              exact hIA q hD
        have hIB' : ∀ q, ¬(D q ∨ pfx q k = true) →
            nview R0'' q = nview R q := by
          intro q hq
          have hD : ¬D q := fun h => hq (Or.inl h)
          have hp : ¬pfx q k = true := fun h => hq (Or.inr h)
          have hqk : q ≠ k := fun he => hp (he ▸ pfx_refl k)
          rw [hnv'' q, if_neg hqk, hnv' q,
            if_neg (fun hcon => hp (pfx_of_pfx_dropLast hcon.1 hknil).1)]
          exact hIB q hD
        rcases ih (fun q => D q ∨ pfx q k = true) R0'' hw''
          (fun k2 hk2 => htodo k2 (List.mem_cons_of_mem _ hk2)) hIA' hIB' with
          ⟨R1, hfold, hwR1, hA, hB⟩
        refine ⟨R1, ?_, hwR1, ?_, ?_⟩
        · rw [List.foldlM_cons, happ, except_bind_ok, hfold]
        · intro q hq
          rcases hq with hD | ⟨k2, hk2, hpf⟩
          · exact hA q (Or.inl (Or.inl hD))
          · rcases List.mem_cons.mp hk2 with he | hm
            · subst he
              exact hA q (Or.inl (Or.inr hpf))
            · exact hA q (Or.inr ⟨k2, hm, hpf⟩)
        · intro q hq
          apply hB
          rintro (hD' | hz)
          · rcases hD' with hD | hp
            · exact hq (Or.inl hD)
            · exact hq (Or.inr ⟨k, List.mem_cons_self k todo', hp⟩)
          · rcases hz with ⟨k2, hk2, hpf⟩
            exact hq (Or.inr ⟨k2, List.mem_cons_of_mem _ hk2, hpf⟩)


/-! ## The `removed_files` fold -/

theorem foldB_spec (base : Path → Option (Option (List Nat × Bool))) :
    ∀ (todo : List Path) (E : Path → Prop) (R0 : FSTree),
    wfT R0 = true →
    (∀ p q, E p → pfx p q = true → E q) →
    (∀ q, E q → nview R0 q = none) →
    (∀ q, ¬ E q → nview R0 q = base q) →
    (∀ r, r ∈ todo → r ≠ [] ∧ (¬ E r → base r ≠ none)) →
    wfT (todo.foldl removeAction R0) = true ∧
    (∀ q, (E q ∨ inEZone todo q) →
      nview (todo.foldl removeAction R0) q = none) ∧
    (∀ q, ¬(E q ∨ inEZone todo q) →
      nview (todo.foldl removeAction R0) q = base q) := by
  intro todo
  induction todo with
  | nil =>
    intro E R0 hw _ hIA hIB _
    refine ⟨hw, ?_, ?_⟩
    · intro q hq
      rcases hq with hE | ⟨r, hr, _⟩
      · exact hIA q hE
      · cases hr
    · intro q hq
      exact hIB q (fun h => hq (Or.inl h))
  | cons r todo' ih =>
    intro E R0 hw hEclosed hIA hIB htodo
    obtain ⟨hrnil, hrbase⟩ := htodo r (List.mem_cons_self r todo')
    by_cases hE : E r
    · have hg : getNode R0 r = none := nview_none_getNode (hIA r hE)
      have hstep : removeAction R0 r = R0 := by rw [removeAction, hg]
      rcases ih E R0 hw hEclosed hIA hIB
        (fun r2 h2 => htodo r2 (List.mem_cons_of_mem _ h2)) with ⟨hw1, hA, hB⟩
      rw [List.foldl_cons, hstep]
      refine ⟨hw1, ?_, ?_⟩
      · intro q hq
        apply hA
        rcases hq with hEq | ⟨r2, hr2, hpf⟩
        · exact Or.inl hEq
        · rcases List.mem_cons.mp hr2 with he | hm
          · exact Or.inl (hEclosed r q hE (he ▸ hpf))
          · exact Or.inr ⟨r2, hm, hpf⟩
      · intro q hq
        apply hB
        rintro (hEq | ⟨r2, hr2, hpf⟩)
        · exact hq (Or.inl hEq)
        · exact hq (Or.inr ⟨r2, List.mem_cons_of_mem _ hr2, hpf⟩)
    · have hnv : nview R0 r ≠ none := by
        rw [hIB r hE]
        exact hrbase hE
      have hg : getNode R0 r ≠ none := by
        intro h
        exact hnv (by rw [nview, h])
      have hstep : removeAction R0 r = deletePath R0 r := by
        rcases hgg : getNode R0 r with _ | w
        · exact absurd hgg hg
        · cases w <;> rw [removeAction, hgg]
      obtain ⟨hwd, hnvd⟩ := nview_deletePath r R0 hw hrnil
      have hEclosed' : ∀ p q, (E p ∨ pfx r p = true) → pfx p q = true →
          (E q ∨ pfx r q = true) := by
        rintro p q (hEp | hrp) hpq
        · exact Or.inl (hEclosed p q hEp hpq)
        · exact Or.inr (pfx_trans hrp hpq)
      have hIA' : ∀ q, (E q ∨ pfx r q = true) →
          nview (deletePath R0 r) q = none := by
        intro q hq
        rcases hq with hEq | hrq
        · by_cases hrq2 : pfx r q = true
          · rw [hnvd q, if_pos hrq2]
          · rw [hnvd q, if_neg hrq2]
            exact hIA q hEq
        · rw [hnvd q, if_pos hrq]
      have hIB' : ∀ q, ¬(E q ∨ pfx r q = true) →
          nview (deletePath R0 r) q = base q := by
        intro q hq
        have hEq : ¬E q := fun h => hq (Or.inl h)
        have hrq : ¬pfx r q = true := fun h => hq (Or.inr h)
        rw [hnvd q, if_neg hrq]
        exact hIB q hEq
      have htodo' : ∀ r2, r2 ∈ todo' → r2 ≠ [] ∧
          (¬(E r2 ∨ pfx r r2 = true) → base r2 ≠ none) := by
        intro r2 h2
        obtain ⟨ha, hb⟩ := htodo r2 (List.mem_cons_of_mem _ h2)
        exact ⟨ha, fun hn => hb (fun hE2 => hn (Or.inl hE2))⟩
      rcases ih (fun q => E q ∨ pfx r q = true) (deletePath R0 r) hwd
        hEclosed' hIA' hIB' htodo' with ⟨hw1, hA, hB⟩
      rw [List.foldl_cons, hstep]
      refine ⟨hw1, ?_, ?_⟩
      · intro q hq
        apply hA
        rcases hq with hEq | ⟨r2, hr2, hpf⟩
        · exact Or.inl (Or.inl hEq)
        · rcases List.mem_cons.mp hr2 with he | hm
          · subst he
            exact Or.inl (Or.inr hpf)
          · exact Or.inr ⟨r2, hm, hpf⟩
      · intro q hq
        apply hB
        rintro ((hEq | hrq) | ⟨r2, hr2, hpf⟩)
        · exact hq (Or.inl hEq)
        · exact hq (Or.inr ⟨r, List.mem_cons_self r todo', hrq⟩)
        · exact hq (Or.inr ⟨r2, List.mem_cons_of_mem _ hr2, hpf⟩)

/-! ## The `modified_files` fold -/

theorem foldC_spec (S : FSTree)
    (base : Path → Option (Option (List Nat × Bool))) :
    ∀ (todo : List Path) (F : Path → Prop) (R0 : FSTree),
    wfT R0 = true →
    (∀ q, F q → ∃ c, getNode S q = some (.file c true)) →
    (∀ q, F q → nview R0 q = builtView S q) →
    (∀ q, ¬ F q → nview R0 q = base q) →
    (∀ m, m ∈ todo → m ≠ [] ∧ (∃ c, getNode S m = some (.file c true)) ∧
      (∃ c0 r0, base m = some (some (c0, r0))) ∧
      base m.dropLast = some none) →
    ∃ R1, todo.foldlM (fun r2 k => copyFile (some S) k r2 k) R0 = .ok R1 ∧
      wfT R1 = true ∧
      (∀ q, (F q ∨ q ∈ todo) → nview R1 q = builtView S q) ∧
      (∀ q, ¬(F q ∨ q ∈ todo) → nview R1 q = base q) := by
  intro todo
  induction todo with
  | nil =>
    intro F R0 hw _ hIA hIB _
    refine ⟨R0, rfl, hw, ?_, ?_⟩
    · intro q hq
      rcases hq with hF | hm
      · exact hIA q hF
      · cases hm
    · intro q hq
      exact hIB q (fun h => hq (Or.inl h))
  | cons m todo' ih =>
    intro F R0 hw hF hIA hIB htodo
    obtain ⟨hmnil, ⟨cS, hgSm⟩, ⟨c0, r0, hbasem⟩, hbasedl⟩ :=
      htodo m (List.mem_cons_self m todo')
    have hgSm_ne : getNode S m ≠ none := by
      rw [hgSm]
      simp
    have hFdl : ¬ F m.dropLast := by
      intro hcontra
      rcases hF _ hcontra with ⟨cdl, hgdl⟩
      rcases getNode_ancestor_dir hgSm_ne (pfx_dropLast_self m)
        (dropLast_ne_self hmnil) with ⟨ch', hgq⟩
      rw [hgdl] at hgq
      cases hgq
    have hparent : nview R0 m.dropLast = some none := by
      rw [hIB _ hFdl, hbasedl]
    have hdst : ∃ cd rd, nview R0 m = some (some (cd, rd)) := by
      by_cases hFm : F m
      · rcases hF m hFm with ⟨cm, hgm⟩
        rw [hIA m hFm, builtView_file hgm]
        exact ⟨cm, true, rfl⟩
      · rw [hIB m hFm, hbasem]
        exact ⟨c0, r0, rfl⟩
    rcases hdst with ⟨cd, rd, hdst⟩
    have hdst_nd : nview R0 m ≠ some none := by
      rw [hdst]
      simp
    have hgd : getNode R0 m = some (.file cd rd) := getNode_of_nview_file hdst
    have hcf : copyFile (some S) m R0 m = putFile R0 m cS := by
      simp [copyFile, getNodeO, hgSm, hgd]
    rcases putFile_spec m R0 cS hw hmnil hparent hdst_nd with
      ⟨R0', hput, hw', hnv'⟩
    have hIA' : ∀ q, (F q ∨ q = m) → nview R0' q = builtView S q := by
      intro q hq
      by_cases hqm : q = m
      · subst hqm
        rw [hnv' q, if_pos rfl, builtView_file hgSm]
      · have hFq : F q := by
          rcases hq with h | h
          · exact h
          · exact absurd h hqm
        rw [hnv' q, if_neg hqm]
        exact hIA q hFq
    have hIB' : ∀ q, ¬(F q ∨ q = m) → nview R0' q = base q := by
      intro q hq
      have hFq : ¬F q := fun h => hq (Or.inl h)
      have hqm : q ≠ m := fun h => hq (Or.inr h)
      rw [hnv' q, if_neg hqm]
      exact hIB q hFq
    have hF' : ∀ q, (F q ∨ q = m) → ∃ c, getNode S q = some (.file c true) := by
      rintro q (h | h)
      · exact hF q h
      · subst h
        exact ⟨cS, hgSm⟩
    rcases ih (fun q => F q ∨ q = m) R0' hw' hF' hIA' hIB'
      (fun m2 h2 => htodo m2 (List.mem_cons_of_mem _ h2)) with
      ⟨R1, hfold, hwR1, hA, hB⟩
    refine ⟨R1, ?_, hwR1, ?_, ?_⟩
    · rw [List.foldlM_cons, hcf, hput, except_bind_ok, hfold]
    · intro q hq
      apply hA
      rcases hq with hF2 | hmem
      · exact Or.inl (Or.inl hF2)
      · rcases List.mem_cons.mp hmem with he | hm2
        · exact Or.inl (Or.inr he)
        · exact Or.inr hm2
    · intro q hq
      apply hB
      rintro ((hF2 | he) | hm2)
      · exact hq (Or.inl hF2)
      · exact hq (Or.inr (he ▸ List.mem_cons_self m todo'))
      · exact hq (Or.inr (List.mem_cons_of_mem _ hm2))

theorem builtView_root {t : FSTree} (h : isDirB t = true) :
    builtView t [] = some none := by
  cases t with
  | file c r => cases h
  | dir ch => rfl

/-- C1 (amended): one pass of `sync_folders` converges — after scanning
both roots and applying the added/removed/modified actions, a fresh scan
of the replica equals the source's manifest pointwise — provided no path
is a directory on one side and a file on the other (the pass may crash or
mis-copy on such type flips, see the counterexample). -/
theorem c1_convergence (S R : FSTree) (hwS : wfT S = true)
    (hwR : wfT R = true) (hS : isDirB S = true) (hR : isDirB R = true)
    (hflip : noFlipB S R = true) :
    ∃ R', syncFolders (some S) R = .ok R' ∧
      ∀ p, alookup p (processDirectory (some R')) =
           alookup p (processDirectory (some S)) := by
  have hLS := scanDir_alookup S hwS
  have hLR := scanDir_alookup R hwR
  have hmemS : ∀ p, p ∈ keysOf (scanDir S) ↔ viewScan S p ≠ none := by
    intro p
    constructor
    · intro hp
      rcases (mem_keysOf _ p).mp hp with ⟨v, hv⟩
      rw [hLS p] at hv
      rw [hv]
      simp
    · intro hp
      rcases hvs : viewScan S p with _ | v
      · exact absurd hvs hp
      · exact (mem_keysOf _ p).mpr ⟨v, by rw [hLS p, hvs]⟩
  have hmemR : ∀ p, p ∈ keysOf (scanDir R) ↔ viewScan R p ≠ none := by
    intro p
    constructor
    · intro hp
      rcases (mem_keysOf _ p).mp hp with ⟨v, hv⟩
      rw [hLR p] at hv
      rw [hv]
      simp
    · intro hp
      rcases hvs : viewScan R p with _ | v
      · exact absurd hvs hp
      · exact (mem_keysOf _ p).mpr ⟨v, by rw [hLR p, hvs]⟩
  -- Phase A: added files
  have htodoA : ∀ k, k ∈ addedOf (scanDir S) (scanDir R) →
      viewScan S k ≠ none ∧ viewScan R k = none := by
    intro k hk
    rw [mem_addedOf] at hk
    exact ⟨(hmemS k).mp hk.1, by rw [← hLR k]; exact hk.2⟩
  rcases foldA_spec S R hflip (addedOf (scanDir S) (scanDir R))
    (fun _ => False) R hwR htodoA (fun q h => h.elim) (fun _ _ => rfl) with
    ⟨RA, hfoldA, hwRA, hA1, hA2⟩
  have hA1' : ∀ q, inAZone (addedOf (scanDir S) (scanDir R)) q →
      nview RA q = builtView S q := fun q h => hA1 q (Or.inr h)
  have hA2' : ∀ q, ¬ inAZone (addedOf (scanDir S) (scanDir R)) q →
      nview RA q = nview R q := by
    intro q h
    apply hA2
    rintro (hFa | hz)
    · exact hFa
    · exact h hz
  -- Phase B: removed files
  have htodoB : ∀ r, r ∈ removedOf (scanDir S) (scanDir R) →
      r ≠ [] ∧ (¬ False → nview RA r ≠ none) := by
    intro r hr
    rw [mem_removedOf] at hr
    have hvRr : viewScan R r ≠ none := (hmemR r).mp hr.1
    have hrnil : r ≠ [] := by
      intro h
      subst h
      exact hvRr (viewScan_nil R)
    refine ⟨hrnil, fun _ => ?_⟩
    have hnotA : ¬ inAZone (addedOf (scanDir S) (scanDir R)) r := by
      rintro ⟨k, hk, hpf⟩
      rw [mem_addedOf] at hk
      have hvSk : viewScan S k ≠ none := (hmemS k).mp hk.1
      have hvSr : viewScan S r = none := by
        rw [← hLS r]
        exact hr.2
      by_cases hrk : r = k
      · subst hrk
        exact hvSk hvSr
      · rcases getNode_ancestor_dir (viewScan_ne_none_getNode hvSk) hpf hrk
          with ⟨ch', hgr⟩
        rw [viewScan, if_neg hrnil, hgr] at hvSr
        cases hvSr
    rw [hA2' r hnotA]
    exact nview_some_of_getNode_ne (viewScan_ne_none_getNode hvRr)
  obtain ⟨hwRB, hB1, hB2⟩ := foldB_spec (fun q => nview RA q)
    (removedOf (scanDir S) (scanDir R)) (fun _ => False) RA hwRA
    (fun _ _ h _ => h) (fun q h => h.elim) (fun _ _ => rfl) htodoB
  have hB1' : ∀ q, inEZone (removedOf (scanDir S) (scanDir R)) q →
      nview ((removedOf (scanDir S) (scanDir R)).foldl removeAction RA) q =
        none := fun q h => hB1 q (Or.inr h)
  have hB2' : ∀ q, ¬ inEZone (removedOf (scanDir S) (scanDir R)) q →
      nview ((removedOf (scanDir S) (scanDir R)).foldl removeAction RA) q =
        nview RA q := by
    intro q h
    apply hB2
    rintro (hFa | hz)
    · exact hFa
    · exact h hz
  -- Phase C: modified files
  have htodoC : ∀ m, m ∈ modifiedOf (scanDir S) (scanDir R) →
      m ≠ [] ∧ (∃ c, getNode S m = some (.file c true)) ∧
      (∃ c0 r0,
        nview ((removedOf (scanDir S) (scanDir R)).foldl removeAction RA) m =
          some (some (c0, r0))) ∧
      nview ((removedOf (scanDir S) (scanDir R)).foldl removeAction RA)
        m.dropLast = some none := by
    intro m hm
    rw [mem_modifiedOf] at hm
    obtain ⟨hmS, vR, hvR, hvne⟩ := hm
    have hvS : viewScan S m ≠ none := (hmemS m).mp hmS
    have hvRv : viewScan R m = some vR := by
      rw [← hLR m]
      exact hvR
    have hmnil : m ≠ [] := by
      intro h
      subst h
      rw [viewScan_nil] at hvRv
      cases hvRv
    rcases hvs : viewScan S m with _ | vS
    · exact absurd hvs hvS
    cases vS with
    | none =>
      exfalso
      rcases viewScan_some_none hvs with ⟨-, ch', hgS⟩
      have hvRne : vR ≠ none := by
        intro h
        subst h
        exact hvne (by rw [hLS m, hvs])
      rcases vR with _ | hstr
      · exact hvRne rfl
      · rcases viewScan_some_some hvRv with ⟨-, cR, hgR, -⟩
        exact noFlip_DF hflip m ch' hgS cR true hgR
    | some hstr =>
      rcases viewScan_some_some hvs with ⟨-, cS, hgS, -⟩
      have hnotErm : ∀ x, pfx x m = true →
          ¬ x ∈ removedOf (scanDir S) (scanDir R) := by
        intro x hpf hx
        rw [mem_removedOf] at hx
        have hvSx : viewScan S x = none := by
          rw [← hLS x]
          exact hx.2
        have hxnil : x ≠ [] := by
          intro h
          subst h
          exact ((hmemR []).mp hx.1) (viewScan_nil R)
        by_cases hxm : x = m
        · subst hxm
          exact hvS hvSx
        · rcases getNode_ancestor_dir (viewScan_ne_none_getNode hvS) hpf hxm
            with ⟨ch', hgx⟩
          rw [viewScan, if_neg hxnil, hgx] at hvSx
          cases hvSx
      refine ⟨hmnil, ⟨cS, hgS⟩, ?_, ?_⟩
      · have hnotE : ¬ inEZone (removedOf (scanDir S) (scanDir R)) m := by
          rintro ⟨r, hr, hpf⟩
          exact hnotErm r hpf hr
        have hnotA : ¬ inAZone (addedOf (scanDir S) (scanDir R)) m := by
          rintro ⟨k, hk, hpf⟩
          rw [mem_addedOf] at hk
          by_cases hmk : m = k
          · subst hmk
            rw [hvR] at hk
            cases hk.2
          · rcases getNode_ancestor_dir
              (viewScan_ne_none_getNode ((hmemS k).mp hk.1)) hpf hmk with
              ⟨ch', hgm⟩
            rw [hgS] at hgm
            cases hgm
        rw [hB2' m hnotE, hA2' m hnotA]
        rcases vR with _ | hstrR
        · exfalso
          rcases viewScan_some_none hvRv with ⟨-, chR, hgRm⟩
          exact noFlip_FD hflip m cS true hgS chR hgRm
        · rcases viewScan_some_some hvRv with ⟨-, cR, hgRm, -⟩
          rw [nview, hgRm]
          exact ⟨cR, true, rfl⟩
      · have hdlpfx : pfx m.dropLast m = true := pfx_dropLast_self m
        have hdlne : m.dropLast ≠ m := dropLast_ne_self hmnil
        have hnotE : ¬ inEZone (removedOf (scanDir S) (scanDir R))
            m.dropLast := by
          rintro ⟨r, hr, hpf⟩
          exact hnotErm r (pfx_trans hpf hdlpfx) hr
        rw [hB2' _ hnotE]
        by_cases hAz : inAZone (addedOf (scanDir S) (scanDir R)) m.dropLast
        · rw [hA1' _ hAz]
          by_cases hdlnil : m.dropLast = []
          · rw [hdlnil]
            exact builtView_root hS
          · rcases getNode_ancestor_dir (viewScan_ne_none_getNode hvS)
              hdlpfx hdlne with ⟨ch', hgdl⟩
            exact builtView_dir hgdl
        · rw [hA2' _ hAz]
          by_cases hdlnil : m.dropLast = []
          · rw [hdlnil]
            exact nview_root_dir hR
          · have hgRm_ne : getNode R m ≠ none :=
              viewScan_ne_none_getNode (by rw [hvRv]; simp)
            rcases getNode_ancestor_dir hgRm_ne hdlpfx hdlne with ⟨chR, hgdl⟩
            rw [nview, hgdl]
  rcases foldC_spec S
    (fun q =>
      nview ((removedOf (scanDir S) (scanDir R)).foldl removeAction RA) q)
    (modifiedOf (scanDir S) (scanDir R)) (fun _ => False)
    ((removedOf (scanDir S) (scanDir R)).foldl removeAction RA) hwRB
    (fun q h => h.elim) (fun q h => h.elim) (fun _ _ => rfl) htodoC with
    ⟨RC, hfoldC, hwRC, hC1, hC2⟩
  have hsync : syncFolders (some S) R = .ok RC := by
    simp only [syncFolders, compareHashes, processDirectory, hfoldA, hfoldC]
  refine ⟨RC, hsync, fun p => ?_⟩
  show alookup p (scanDir RC) = alookup p (scanDir S)
  rw [scanDir_alookup RC hwRC p, hLS p]
  by_cases hp : p = []
  · subst hp
    rw [viewScan_nil, viewScan_nil]
  by_cases hC : p ∈ modifiedOf (scanDir S) (scanDir R)
  · obtain ⟨hpnil, ⟨cS, hgS⟩, -, -⟩ := htodoC p hC
    have h1 : nview RC p = builtView S p := hC1 p (Or.inr hC)
    have hL : viewScan RC p = some (some (md5Hex cS)) := by
      rw [viewScan_nview RC p, if_neg hpnil, h1, builtView_file hgS]
    have hRr : viewScan S p = some (some (md5Hex cS)) := by
      rw [viewScan, if_neg hpnil, hgS]
    rw [hL, hRr]
  · have hC2p : nview RC p =
        nview ((removedOf (scanDir S) (scanDir R)).foldl removeAction RA) p := by
      apply hC2
      rintro (h | h)
      · exact h
      · exact hC h
    by_cases hE : inEZone (removedOf (scanDir S) (scanDir R)) p
    · have h1 : nview RC p = none := by
        rw [hC2p, hB1' p hE]
      have hL : viewScan RC p = none := by
        rw [viewScan_nview RC p, if_neg hp, h1]
      have hSnone : viewScan S p = none := by
        rcases hE with ⟨r, hr, hpf⟩
        rw [mem_removedOf] at hr
        have hvSr : viewScan S r = none := by
          rw [← hLS r]
          exact hr.2
        rcases hvs : viewScan S p with _ | v
        · rfl
        · exfalso
          have hgSp : getNode S p ≠ none :=
            viewScan_ne_none_getNode (by rw [hvs]; simp)
          by_cases hrp : r = p
          · subst hrp
            rw [hvs] at hvSr
            cases hvSr
          · have hrnil : r ≠ [] := by
              intro h
              subst h
              exact ((hmemR []).mp hr.1) (viewScan_nil R)
            rcases getNode_ancestor_dir hgSp hpf hrp with ⟨ch', hgr⟩
            rw [viewScan, if_neg hrnil, hgr] at hvSr
            cases hvSr
      rw [hL, hSnone]
    · by_cases hA : inAZone (addedOf (scanDir S) (scanDir R)) p
      · have h1 : nview RC p = builtView S p := by
          rw [hC2p, hB2' p hE, hA1' p hA]
        rcases hA with ⟨k, hk, hpf⟩
        rw [mem_addedOf] at hk
        have hvSk : viewScan S k ≠ none := (hmemS k).mp hk.1
        by_cases hpk : p = k
        · subst hpk
          rcases hvs : viewScan S p with _ | v
          · exact absurd hvs hvSk
          · cases v with
            | none =>
              rcases viewScan_some_none hvs with ⟨-, ch', hgS⟩
              rw [viewScan_nview RC p, if_neg hp, h1, builtView_dir hgS]
            | some hstr =>
              rcases viewScan_some_some hvs with ⟨-, cS, hgS, hmd⟩
              rw [viewScan_nview RC p, if_neg hp, h1, builtView_file hgS, hmd]
        · rcases getNode_ancestor_dir (viewScan_ne_none_getNode hvSk) hpf hpk
            with ⟨ch', hgS⟩
          rw [viewScan_nview RC p, if_neg hp, h1, builtView_dir hgS,
            viewScan, if_neg hp, hgS]
      · have h1 : nview RC p = nview R p := by
          rw [hC2p, hB2' p hE, hA2' p hA]
        rw [viewScan_eq_of_nview RC R p h1]
        rcases hvS : viewScan S p with _ | vS
        · rcases hvR2 : viewScan R p with _ | vR2
          · rfl
          · exfalso
            apply hE
            refine ⟨p, ?_, pfx_refl p⟩
            rw [mem_removedOf]
            constructor
            · exact (hmemR p).mpr (by rw [hvR2]; simp)
            · rw [hLS p, hvS]
        · rcases hvR2 : viewScan R p with _ | vR2
          · exfalso
            apply hA
            refine ⟨p, ?_, pfx_refl p⟩
            rw [mem_addedOf]
            exact ⟨(hmemS p).mpr (by rw [hvS]; simp), by rw [hLR p, hvR2]⟩
          · by_cases hvv : vS = vR2
            · rw [hvv]
            · exfalso
              apply hC
              rw [mem_modifiedOf]
              refine ⟨(hmemS p).mpr (by rw [hvS]; simp), vR2,
                by rw [hLR p, hvR2], ?_⟩
              rw [hLS p, hvS]
              intro hcon
              injection hcon with h2
              exact hvv h2


/-- C1 counterexample: with source file "x" and replica directory "x",
the pass classifies "x" as modified and `shutil.copy2` drops the file
*inside* the still-standing replica directory; the fresh replica scan
keeps the directory marker at "x" (and gains key "x"/"x"), so it differs
from the source manifest at "x". -/
theorem c1_counterexample :
    syncFolders (some (.dir (.cons "x" (.file [97] true) .nil)))
        (.dir (.cons "x" (.dir .nil) .nil)) =
      .ok (.dir (.cons "x" (.dir (.cons "x" (.file [97] true) .nil)) .nil)) ∧
    alookup ["x"] (processDirectory (some (FSTree.dir (.cons "x"
        (.dir (.cons "x" (.file [97] true) .nil)) .nil)))) = some none ∧
    alookup ["x"] (processDirectory (some (FSTree.dir (.cons "x"
        (.file [97] true) .nil)))) = some (some (md5Hex [97])) ∧
    (some (none : Option String)) ≠ some (some (md5Hex [97])) := by
  refine ⟨rfl, rfl, rfl, by simp⟩

/-- Witness for C1 on flip-free trees: the source adds a file and a
directory with a file, the replica holds a stale file and an obsolete
directory. -/
theorem c1_convergence_witness :
    (wfT (.dir (.cons "a" (.file [1] true)
        (.cons "d" (.dir (.cons "f" (.file [2] true) .nil)) .nil))) = true ∧
     wfT (.dir (.cons "a" (.file [9] true)
        (.cons "old" (.dir (.cons "g" (.file [3] true) .nil)) .nil))) = true ∧
     isDirB (.dir (.cons "a" (.file [1] true)
        (.cons "d" (.dir (.cons "f" (.file [2] true) .nil)) .nil))) = true ∧
     isDirB (.dir (.cons "a" (.file [9] true)
        (.cons "old" (.dir (.cons "g" (.file [3] true) .nil)) .nil))) = true ∧
     noFlipB (.dir (.cons "a" (.file [1] true)
        (.cons "d" (.dir (.cons "f" (.file [2] true) .nil)) .nil)))
       (.dir (.cons "a" (.file [9] true)
        (.cons "old" (.dir (.cons "g" (.file [3] true) .nil)) .nil))) = true) ∧
    (∃ R', syncFolders (some (.dir (.cons "a" (.file [1] true)
        (.cons "d" (.dir (.cons "f" (.file [2] true) .nil)) .nil))))
        (.dir (.cons "a" (.file [9] true)
          (.cons "old" (.dir (.cons "g" (.file [3] true) .nil)) .nil))) =
        .ok R' ∧
      ∀ p, alookup p (processDirectory (some R')) =
        alookup p (processDirectory (some (FSTree.dir (.cons "a"
          (.file [1] true)
          (.cons "d" (.dir (.cons "f" (.file [2] true) .nil)) .nil)))))) :=
  ⟨⟨by decide, by decide, by decide, by decide, by decide⟩,
   c1_convergence _ _ (by decide) (by decide) (by decide) (by decide)
     (by decide)⟩

/-- C3 (behavior of the code at the failing input): a missing scan root
is *not* a fatal scan error — os.walk on a nonexistent path yields no
triples, so `process_directory` returns the empty dict, indistinguishable
from scanning an empty directory, and the pass proceeds; with a missing
*source* root it deletes every replica entry and reports success. -/
theorem c3_missing_root_scans_empty :
    processDirectory none = [] ∧
    processDirectory none = processDirectory (some (.dir .nil)) ∧
    syncFolders none (.dir (.cons "a" (.file [1, 2] true)
      (.cons "d" (.dir (.cons "f" (.file [3] true) .nil)) .nil))) =
      .ok (.dir .nil) := by
  refine ⟨rfl, rfl, rfl⟩

end FSync
